import Mathlib

/-!
Verification of the Foundry CI/CD engine core: the planner (topological
ordering, `internal/plan`) and the executor (`internal/exec`).

The Go source is shallowly embedded: pure functions become Lean functions,
Go maps become association lists or explicit functions, machine integers
become `Int`/`Nat`, fallible functions return `Except`.  The concurrent
scheduler in `Execute` is embedded as a small-step transition system over
task phases, with the scheduler's interleaving choices supplied explicitly;
external commands, `time.ParseDuration` and the wall clock are oracles
passed in as parameters.  Filesystem operations (log/plan files,
directory creation) are out of scope and modelled as always succeeding.
-/

namespace Foundry

/-- Lexicographic comparison of character lists by code point.  Go's
`slices.Sort` on strings compares UTF-8 bytes lexicographically, which
coincides with code-point lexicographic order. -/
def charListLtB : List Char → List Char → Bool
  | [], [] => false
  | [], _ :: _ => true
  | _ :: _, [] => false
  | a :: as, b :: bs =>
    if Nat.blt a.toNat b.toNat then true
    else if Nat.blt b.toNat a.toNat then false
    else charListLtB as bs

/-- Boolean string order used by the embedding, matching Go's `<` and the
ascending order produced by `slices.Sort`. -/
def strLeB (a b : String) : Bool := ! charListLtB b.data a.data

/-- The string order as a relation, for use with `List.insertionSort`. -/
def strLE : String → String → Prop := fun a b => strLeB a b = true

instance : DecidableRel strLE := fun _ _ => inferInstanceAs (Decidable (_ = true))

/-- Ascending sort of a string list, standing in for Go's `slices.Sort`.
The algorithm is irrelevant: the sorted permutation of a list is unique. -/
def sortStrings (l : List String) : List String := List.insertionSort strLE l

theorem blt_true_of {a b : Nat} (h : a < b) : Nat.blt a b = true := by
  rw [Nat.blt_eq]; exact h

theorem blt_false_of {a b : Nat} (h : ¬ a < b) : Nat.blt a b = false := by
  rcases hb : Nat.blt a b with hh | hh
  · rfl
  · exact absurd (by rw [← Nat.blt_eq]; exact hb) h

theorem char_eq_of_toNat_eq {a b : Char} (h : a.toNat = b.toNat) : a = b :=
  Char.eq_of_val_eq (UInt32.toNat.inj h)

theorem charListLtB_asymm :
    ∀ {a b}, charListLtB a b = true → charListLtB b a = false := by
  intro a
  induction a with
  | nil => intro b h; cases b <;> simp_all [charListLtB]
  | cons x xs ih =>
    intro b h
    cases b with
    | nil => simp_all [charListLtB]
    | cons y ys =>
      rcases Nat.lt_trichotomy x.toNat y.toNat with hlt | heq | hgt
      · simp [charListLtB, blt_true_of hlt, blt_false_of (show ¬ y.toNat < x.toNat by omega)]
      · have hxy := char_eq_of_toNat_eq heq
        subst hxy
        simp only [charListLtB, blt_false_of (show ¬ x.toNat < x.toNat by omega)] at h ⊢
        exact ih h
      · simp [charListLtB, blt_true_of hgt, blt_false_of (show ¬ x.toNat < y.toNat by omega)] at h

theorem charListLtB_eq_of_not :
    ∀ {a b}, charListLtB a b = false → charListLtB b a = false → a = b := by
  intro a
  induction a with
  | nil => intro b h _; cases b <;> simp_all [charListLtB]
  | cons x xs ih =>
    intro b h h'
    cases b with
    | nil => simp_all [charListLtB]
    | cons y ys =>
      rcases Nat.lt_trichotomy x.toNat y.toNat with hlt | heq | hgt
      · simp [charListLtB, blt_true_of hlt] at h
      · have hxy := char_eq_of_toNat_eq heq
        subst hxy
        simp only [charListLtB, blt_false_of (show ¬ x.toNat < x.toNat by omega)] at h h'
        rw [ih h h']
      · simp [charListLtB, blt_true_of hgt] at h'

theorem charListLtB_trans :
    ∀ {a b c}, charListLtB a b = true → charListLtB b c = true →
      charListLtB a c = true := by
  intro a
  induction a with
  | nil =>
    intro b c h h'
    cases b with
    | nil => simp_all [charListLtB]
    | cons y ys => cases c <;> simp_all [charListLtB]
  | cons x xs ih =>
    intro b c h h'
    cases b with
    | nil => simp_all [charListLtB]
    | cons y ys =>
      cases c with
      | nil => simp_all [charListLtB]
      | cons z zs =>
        rcases Nat.lt_trichotomy x.toNat y.toNat with hxy | hxy | hxy
        · rcases Nat.lt_trichotomy y.toNat z.toNat with hyz | hyz | hyz
          · simp [charListLtB, blt_true_of (show x.toNat < z.toNat by omega)]
          · simp [charListLtB, blt_true_of (show x.toNat < z.toNat by omega)]
          · simp [charListLtB, blt_false_of (show ¬ y.toNat < z.toNat by omega), blt_true_of hyz] at h'
        · have := char_eq_of_toNat_eq hxy
          subst this
          simp only [charListLtB, blt_false_of (show ¬ x.toNat < x.toNat by omega)] at h
          rcases Nat.lt_trichotomy x.toNat z.toNat with hxz | hxz | hxz
          · simp [charListLtB, blt_true_of hxz]
          · have := char_eq_of_toNat_eq hxz
            subst this
            simp only [charListLtB, blt_false_of (show ¬ x.toNat < x.toNat by omega)] at h' ⊢
            exact ih h h'
          · simp [charListLtB, blt_false_of (show ¬ x.toNat < z.toNat by omega), blt_true_of hxz] at h'
        · simp [charListLtB, blt_false_of (show ¬ x.toNat < y.toNat by omega), blt_true_of hxy] at h

theorem strLE_iff {a b : String} : strLE a b ↔ charListLtB b.data a.data = false := by
  simp [strLE, strLeB]

theorem string_data_inj {a b : String} (h : a.data = b.data) : a = b := by
  cases a; cases b; simp_all

instance : IsTotal String strLE := by
  constructor
  intro a b
  rcases h : charListLtB b.data a.data with hf | ht
  · exact Or.inl (strLE_iff.mpr h)
  · exact Or.inr (strLE_iff.mpr (charListLtB_asymm h))

instance : IsTrans String strLE := by
  constructor
  intro a b c hab hbc
  rw [strLE_iff] at hab hbc ⊢
  rcases ht : charListLtB c.data a.data with _ | _
  · rfl
  · exfalso
    rcases hab2 : charListLtB a.data b.data with _ | _
    · have he : a.data = b.data := charListLtB_eq_of_not hab2 hab
      rw [he] at ht
      rw [ht] at hbc
      exact Bool.noConfusion hbc
    · have h3 := charListLtB_trans ht hab2
      rw [h3] at hbc
      exact Bool.noConfusion hbc

instance : IsAntisymm String strLE := by
  constructor
  intro a b hab hba
  rw [strLE_iff] at hab hba
  exact string_data_inj (charListLtB_eq_of_not hba hab)

theorem sortStrings_sorted (l : List String) : (sortStrings l).Sorted strLE :=
  List.sorted_insertionSort strLE l

theorem sortStrings_perm (l : List String) : List.Perm (sortStrings l) l :=
  List.perm_insertionSort strLE l

theorem sortStrings_mem {l : List String} {x : String} :
    x ∈ sortStrings l ↔ x ∈ l :=
  (sortStrings_perm l).mem_iff

theorem sortStrings_nodup {l : List String} (h : l.Nodup) : (sortStrings l).Nodup :=
  ((sortStrings_perm l).nodup_iff).mpr h

/-- A sorted ready list is uniquely determined by its member set: two sorted
lists without duplicates containing the same strings are equal. -/
theorem sorted_nodup_ext {l₁ l₂ : List String}
    (s₁ : l₁.Sorted strLE) (s₂ : l₂.Sorted strLE)
    (n₁ : l₁.Nodup) (n₂ : l₂.Nodup)
    (h : ∀ x, x ∈ l₁ ↔ x ∈ l₂) : l₁ = l₂ :=
  List.eq_of_perm_of_sorted ((List.perm_ext_iff_of_nodup n₁ n₂).mpr h) s₁ s₂

/-- Mirrors `plan.PlanStep` (and the identical `plan.Step` used by the
executor): id, type, command vector, dependency ids, extra environment,
timeout string and retry budget. `env` is an association list standing in
for Go's `map[string]string`; `retries` is a Go `int`, hence `Int`. -/
structure PlanStep where
  id : String
  kind : String := ""
  command : List String := []
  deps : List String := []
  env : List (String × String) := []
  timeout : String := ""
  retries : Int := 0
deriving Repr, DecidableEq

/-- The distinct step ids in first-occurrence order: the key set of the Go
`stepMap` built by `TopologicalSort` (map iteration order is irrelevant
because the code sorts every list read from it). -/
def stepIds (steps : List PlanStep) : List String :=
  steps.foldl (fun acc s => if s.id ∈ acc then acc else acc ++ [s.id]) []

/-- The initial in-degree map of `TopologicalSort`: each step's entry is
incremented once per dependency it declares (`inDegree[step.ID]++`). -/
def inDeg0 (steps : List PlanStep) (x : String) : Int :=
  steps.foldl (fun n s => if s.id = x then n + s.deps.length else n) 0

/-- The adjacency list of `TopologicalSort`: `adjOf steps d` lists, in step
order and with multiplicity, the ids of the steps that declare `d` as a
dependency (`adjList[dep] = append(adjList[dep], step.ID)`). -/
def adjOf (steps : List PlanStep) (d : String) : List String :=
  steps.flatMap (fun s => (s.deps.filter (fun e => e = d)).map (fun _ => s.id))

/-- One pass over the (sorted) dependents of the popped node: decrement each
dependent's in-degree and, when it reaches exactly zero, insert it into the
sorted ready list (`ready = append(ready, neighbor); slices.Sort(ready)`). -/
def processNeighbors (inDeg : String → Int) (ready : List String) :
    List String → (String → Int) × List String
  | [] => (inDeg, ready)
  | n :: ns =>
    let d := inDeg n - 1
    let inDeg' := fun x => if x = n then d else inDeg x
    let ready' := if d = 0 then sortStrings (ready ++ [n]) else ready
    processNeighbors inDeg' ready' ns

/-- Kahn's main loop: pop the head of the sorted ready list (its minimum),
append it to the order, and process its dependents (sorted first, as the Go
code sorts `neighbors`).  The loop runs until the ready list is empty; the
`fuel` argument only bounds the recursion and is chosen large enough in
`TopologicalSort` that it never runs out (see `sortLoop_measure`). -/
def sortLoop (steps : List PlanStep) :
    Nat → (String → Int) → List String → List String → List String
  | 0, _, _, acc => acc
  | fuel + 1, inDeg, ready, acc =>
    match ready with
    | [] => acc
    | current :: rest =>
      let neighbors := sortStrings (adjOf steps current)
      let p := processNeighbors inDeg rest neighbors
      sortLoop steps fuel p.1 p.2 (acc ++ [current])

/-- Total number of declared dependencies, used to bound the loop. -/
def totalDeps (steps : List PlanStep) : Nat :=
  steps.foldl (fun n s => n + s.deps.length) 0

/-- Mirrors `plan.TopologicalSort`: deterministic Kahn's algorithm.  Empty
input returns an empty order; if the produced order is shorter than the
input list a cycle exists and an error is returned. -/
def TopologicalSort (steps : List PlanStep) : Except String (List String) :=
  if steps = [] then .ok []
  else
    let ready := sortStrings ((stepIds steps).filter (fun x => inDeg0 steps x = 0))
    let order := sortLoop steps (steps.length + totalDeps steps) (inDeg0 steps) ready []
    if order.length ≠ steps.length then
      .error ("topological sort: cycle detected (only " ++ toString order.length ++
        " of " ++ toString steps.length ++ " steps ordered)")
    else .ok order

/-! Invariant machinery for the correctness of `TopologicalSort`. -/

/-- Specification of the evolving in-degree: the number of dependency
occurrences, over all steps named `x`, whose dependency id is not yet in
the processed list `done`. -/
def curDeg (steps : List PlanStep) (done : List String) (x : String) : Nat :=
  ((steps.filter (fun s => s.id = x)).map
    (fun s => (s.deps.filter (fun d => decide (d ∉ done))).length)).sum

/-- The ids that are ready relative to a processed prefix `done`: not yet
processed, with every declared dependency already in `done`. -/
def readyIds (steps : List PlanStep) (done : List String) : List String :=
  (stepIds steps).filter
    (fun x => decide (x ∉ done ∧ ∀ s ∈ steps, s.id = x → ∀ d ∈ s.deps, d ∈ done))

theorem stepIds_aux (steps : List PlanStep) :
    ∀ acc, acc.Nodup →
      (steps.foldl (fun acc s => if s.id ∈ acc then acc else acc ++ [s.id]) acc).Nodup
      ∧ (∀ x, x ∈ steps.foldl (fun acc s => if s.id ∈ acc then acc else acc ++ [s.id]) acc ↔
          x ∈ acc ∨ ∃ s ∈ steps, s.id = x) := by
  induction steps with
  | nil => intro acc h; exact ⟨h, by simp⟩
  | cons s ss ih =>
    intro acc h
    simp only [List.foldl_cons]
    by_cases hm : s.id ∈ acc
    · rw [if_pos hm]
      obtain ⟨hn, hmem⟩ := ih acc h
      refine ⟨hn, fun x => ?_⟩
      rw [hmem x]
      constructor
      · rintro (hx | ⟨t, ht, he⟩)
        · exact Or.inl hx
        · exact Or.inr ⟨t, List.mem_cons_of_mem s ht, he⟩
      · rintro (hx | ⟨t, ht, he⟩)
        · exact Or.inl hx
        · rcases List.mem_cons.mp ht with rfl | ht'
          · exact Or.inl (he ▸ hm)
          · exact Or.inr ⟨t, ht', he⟩
    · rw [if_neg hm]
      have hacc : (acc ++ [s.id]).Nodup := by
        simp [List.nodup_append, h, hm]
      obtain ⟨hn, hmem⟩ := ih (acc ++ [s.id]) hacc
      refine ⟨hn, fun x => ?_⟩
      rw [hmem x]
      simp only [List.mem_append, List.mem_singleton]
      constructor
      · rintro ((hx | hx) | ⟨t, ht, he⟩)
        · exact Or.inl hx
        · exact Or.inr ⟨s, List.mem_cons_self s ss, hx.symm⟩
        · exact Or.inr ⟨t, List.mem_cons_of_mem s ht, he⟩
      · rintro (hx | ⟨t, ht, he⟩)
        · exact Or.inl (Or.inl hx)
        · rcases List.mem_cons.mp ht with rfl | ht'
          · exact Or.inl (Or.inr he.symm)
          · exact Or.inr ⟨t, ht', he⟩

theorem stepIds_nodup (steps : List PlanStep) : (stepIds steps).Nodup :=
  (stepIds_aux steps [] List.nodup_nil).1

theorem mem_stepIds {steps : List PlanStep} {x : String} :
    x ∈ stepIds steps ↔ ∃ s ∈ steps, s.id = x := by
  rw [stepIds, (stepIds_aux steps [] List.nodup_nil).2 x]
  simp

theorem stepIds_length_le (steps : List PlanStep) :
    (stepIds steps).length ≤ steps.length := by
  have aux : ∀ acc, (steps.foldl (fun acc s => if s.id ∈ acc then acc else acc ++ [s.id]) acc).length
      ≤ acc.length + steps.length := by
    induction steps with
    | nil => intro acc; simp
    | cons s ss ih =>
      intro acc
      simp only [List.foldl_cons, List.length_cons]
      by_cases hm : s.id ∈ acc
      · rw [if_pos hm]
        have := ih acc
        omega
      · rw [if_neg hm]
        have := ih (acc ++ [s.id])
        simp only [List.length_append, List.length_singleton] at this
        omega
  simpa using aux []

theorem mem_adjOf {steps : List PlanStep} {d n : String} :
    n ∈ adjOf steps d ↔ ∃ s ∈ steps, s.id = n ∧ d ∈ s.deps := by
  simp only [adjOf, List.mem_flatMap, List.mem_map, List.mem_filter]
  constructor
  · rintro ⟨s, hs, e, ⟨he, hed⟩, rfl⟩
    exact ⟨s, hs, rfl, by simpa [of_decide_eq_true hed] using he⟩
  · rintro ⟨s, hs, rfl, hd⟩
    exact ⟨s, hs, d, ⟨hd, by simp⟩, rfl⟩

theorem count_map_const {α : Type} (l : List α) (v x : String) :
    (l.map (fun _ => v)).count x = if v = x then l.length else 0 := by
  induction l with
  | nil => simp
  | cons a as ih =>
    simp only [List.map_cons, List.count_cons, ih]
    by_cases h : v = x <;> simp [h]

theorem length_filter_eq_count (l : List String) (c : String) :
    (l.filter (fun e => decide (e = c))).length = l.count c := by
  induction l with
  | nil => simp
  | cons a as ih =>
    by_cases h : a = c
    · subst h
      rw [List.filter_cons_of_pos (by simp), List.count_cons_self, List.length_cons, ih]
    · rw [List.filter_cons_of_neg (by simp [h])]
      rw [List.count_cons]
      simp [h, ih]

theorem curDeg_cons_pos {s : PlanStep} {x : String} (tl : List PlanStep)
    (done : List String) (h : s.id = x) :
    curDeg (s :: tl) done x =
      (s.deps.filter (fun d => decide (d ∉ done))).length + curDeg tl done x := by
  simp only [curDeg]
  rw [List.filter_cons_of_pos (by simp [h]), List.map_cons, List.sum_cons]

theorem curDeg_cons_neg {s : PlanStep} {x : String} (tl : List PlanStep)
    (done : List String) (h : ¬ s.id = x) :
    curDeg (s :: tl) done x = curDeg tl done x := by
  simp only [curDeg]
  rw [List.filter_cons_of_neg (by simp [h])]

theorem count_adjOf (steps : List PlanStep) (c x : String) :
    (adjOf steps c).count x =
      ((steps.filter (fun s => s.id = x)).map (fun s => s.deps.count c)).sum := by
  induction steps with
  | nil => simp [adjOf]
  | cons s ss ih =>
    simp only [adjOf, List.flatMap_cons, List.count_append] at *
    rw [ih, count_map_const]
    by_cases h : s.id = x
    · rw [if_pos h, List.filter_cons_of_pos (by simp [h])]
      simp only [List.map_cons, List.sum_cons]
      rw [length_filter_eq_count]
    · rw [if_neg h, List.filter_cons_of_neg (by simp [h])]
      omega

theorem inDeg0_eq_curDeg (steps : List PlanStep) (x : String) :
    inDeg0 steps x = (curDeg steps [] x : Int) := by
  have aux : ∀ (ss : List PlanStep) (n : Int),
      ss.foldl (fun n s => if s.id = x then n + (s.deps.length : Int) else n) n
      = n + (curDeg ss [] x : Int) := by
    intro ss
    induction ss with
    | nil => intro n; simp [curDeg]
    | cons s tl ih =>
      intro n
      simp only [List.foldl_cons]
      by_cases h : s.id = x
      · rw [if_pos h, ih, curDeg_cons_pos tl [] h]
        have hlen : (s.deps.filter (fun d => decide (d ∉ ([] : List String)))).length
            = s.deps.length := by simp
        rw [hlen]
        push_cast
        ring
      · rw [if_neg h, ih, curDeg_cons_neg tl [] h]
  simpa [inDeg0] using aux steps 0

theorem filter_not_mem_append_singleton (l : List String) (done : List String)
    (c : String) (hc : c ∉ done) :
    (l.filter (fun d => decide (d ∉ done))).length =
      (l.filter (fun d => decide (d ∉ done ++ [c]))).length + l.count c := by
  induction l with
  | nil => simp
  | cons a as ih =>
    by_cases hac : a = c
    · subst hac
      rw [List.filter_cons_of_pos (by simp [hc]), List.filter_cons_of_neg (by simp),
          List.count_cons_self, List.length_cons]
      omega
    · have hcount : (a :: as).count c = as.count c := by
        rw [List.count_cons]
        simp [hac]
      by_cases had : a ∈ done
      · rw [List.filter_cons_of_neg (by simp [had]),
            List.filter_cons_of_neg (by simp [had]), hcount]
        exact ih
      · rw [List.filter_cons_of_pos (by simp [had]),
            List.filter_cons_of_pos (by simp [had, hac]),
            hcount, List.length_cons, List.length_cons]
        omega

theorem curDeg_append (steps : List PlanStep) (done : List String) (c x : String)
    (hc : c ∉ done) :
    curDeg steps done x = curDeg steps (done ++ [c]) x + (adjOf steps c).count x := by
  rw [count_adjOf]
  simp only [curDeg]
  generalize (steps.filter (fun s => s.id = x)) = L
  induction L with
  | nil => simp
  | cons s ss ih =>
    simp only [List.map_cons, List.sum_cons]
    rw [filter_not_mem_append_singleton s.deps done c hc]
    omega

theorem curDeg_zero_iff (steps : List PlanStep) (done : List String) (x : String) :
    curDeg steps done x = 0 ↔ ∀ s ∈ steps, s.id = x → ∀ d ∈ s.deps, d ∈ done := by
  simp only [curDeg, List.sum_eq_zero_iff, List.mem_map, List.mem_filter]
  constructor
  · intro h s hs hid d hd
    have h0 := h _ ⟨s, ⟨hs, by simp [hid]⟩, rfl⟩
    rw [List.length_eq_zero] at h0
    by_contra hdn
    have hmem : d ∈ s.deps.filter (fun d => decide (d ∉ done)) := by
      simp [List.mem_filter, hd, hdn]
    rw [h0] at hmem
    exact absurd hmem (List.not_mem_nil d)
  · rintro h n ⟨s, ⟨hs, hid⟩, rfl⟩
    rw [List.length_eq_zero, List.filter_eq_nil_iff]
    intro d hd
    simp [h s hs (by simpa using hid) d hd]

theorem curDeg_zero_mono (steps : List PlanStep) (done : List String) (c x : String)
    (hc : c ∉ done) (h : curDeg steps done x = 0) :
    curDeg steps (done ++ [c]) x = 0 := by
  have := curDeg_append steps done c x hc
  omega

/-- Full characterization of one neighbor-processing pass: the in-degree of
every id drops by its multiplicity in the neighbor list, and the ready list
gains exactly the ids whose in-degree thereby reaches zero. -/
theorem processNeighbors_spec :
    ∀ (ns : List String) (inDeg : String → Int) (ready : List String),
      (∀ x, 0 ≤ inDeg x) →
      (∀ x, (ns.count x : Int) ≤ inDeg x) →
      ready.Sorted strLE → ready.Nodup →
      (∀ x ∈ ready, inDeg x = 0) →
      (∀ x, (processNeighbors inDeg ready ns).1 x = inDeg x - ns.count x) ∧
      (processNeighbors inDeg ready ns).2.Sorted strLE ∧
      (processNeighbors inDeg ready ns).2.Nodup ∧
      (∀ x ∈ (processNeighbors inDeg ready ns).2, (processNeighbors inDeg ready ns).1 x = 0) ∧
      (∀ x, x ∈ (processNeighbors inDeg ready ns).2 ↔
        x ∈ ready ∨ (inDeg x - ns.count x = 0 ∧ x ∈ ns)) := by
  intro ns
  induction ns with
  | nil =>
    intro inDeg ready h1 h2 h3 h4 h5
    exact ⟨by simp [processNeighbors], h3, h4, h5, by simp [processNeighbors]⟩
  | cons n ns ih =>
    intro inDeg ready h1 h2 h3 h4 h5
    have hn1 : 1 ≤ inDeg n := by
      have hc := h2 n
      rw [List.count_cons_self] at hc
      push_cast at hc
      omega
    have hcount_ne : ∀ x, x ≠ n → ((n :: ns).count x : Int) = ns.count x := by
      intro x hx
      rw [List.count_cons]
      simp [Ne.symm hx]
    have hcount_n : ((n :: ns).count n : Int) = ns.count n + 1 := by
      rw [List.count_cons_self]
      push_cast
      ring
    have hn_not : n ∉ ready := by
      intro hmem
      have := h5 n hmem
      omega
    have hunfold : processNeighbors inDeg ready (n :: ns) =
        processNeighbors (fun x => if x = n then inDeg n - 1 else inDeg x)
          (if inDeg n - 1 = 0 then sortStrings (ready ++ [n]) else ready) ns := rfl
    have hmem1 : ∀ x, x ∈ (if inDeg n - 1 = 0 then sortStrings (ready ++ [n]) else ready) ↔
        x ∈ ready ∨ (inDeg n - 1 = 0 ∧ x = n) := by
      intro x
      by_cases hd : inDeg n - 1 = 0
      · rw [if_pos hd, sortStrings_mem]
        simp only [List.mem_append, List.mem_singleton]
        tauto
      · rw [if_neg hd]
        tauto
    have h1' : ∀ x, 0 ≤ (fun x => if x = n then inDeg n - 1 else inDeg x) x := by
      intro x
      by_cases hx : x = n <;> simp [hx]
      · omega
      · exact h1 x
    have h2' : ∀ x, (ns.count x : Int) ≤ (fun x => if x = n then inDeg n - 1 else inDeg x) x := by
      intro x
      by_cases hx : x = n
      · subst hx
        have := h2 x
        rw [hcount_n] at this
        simp
        omega
      · have := h2 x
        rw [hcount_ne x hx] at this
        simpa [hx] using this
    have h3' : (if inDeg n - 1 = 0 then sortStrings (ready ++ [n]) else ready).Sorted strLE := by
      by_cases hd : inDeg n - 1 = 0
      · rw [if_pos hd]; exact sortStrings_sorted _
      · rw [if_neg hd]; exact h3
    have h4' : (if inDeg n - 1 = 0 then sortStrings (ready ++ [n]) else ready).Nodup := by
      by_cases hd : inDeg n - 1 = 0
      · rw [if_pos hd]
        apply sortStrings_nodup
        simp [List.nodup_append, h4, hn_not]
      · rw [if_neg hd]; exact h4
    have h5' : ∀ x ∈ (if inDeg n - 1 = 0 then sortStrings (ready ++ [n]) else ready),
        (fun x => if x = n then inDeg n - 1 else inDeg x) x = 0 := by
      intro x hx
      rw [hmem1 x] at hx
      rcases hx with hx | ⟨hd, rfl⟩
      · have hxn : x ≠ n := fun he => hn_not (he ▸ hx)
        simp only [if_neg hxn]
        exact h5 x hx
      · simp [hd]
    obtain ⟨ih1, ih2, ih3, ih4, ih5⟩ := ih _ _ h1' h2' h3' h4' h5'
    have hdegtr : ∀ x, (fun x => if x = n then inDeg n - 1 else inDeg x) x - ns.count x
        = inDeg x - (n :: ns).count x := by
      intro x
      by_cases hx : x = n
      · subst hx
        rw [hcount_n]
        simp
        ring
      · rw [hcount_ne x hx]
        simp [hx]
    rw [hunfold]
    refine ⟨fun x => by rw [ih1 x, hdegtr x], ih2, ih3, ih4, fun x => ?_⟩
    rw [ih5 x, hmem1 x]
    constructor
    · rintro ((hx | ⟨hd, he⟩) | ⟨hz, hx⟩)
      · exact Or.inl hx
      · subst he
        refine Or.inr ⟨?_, List.mem_cons_self _ ns⟩
        have hcn : (ns.count x : Int) ≤ inDeg x - 1 := by
          have := h2' x
          simpa using this
        rw [hcount_n]
        have : (ns.count x : Int) = 0 := by omega
        omega
      · rw [hdegtr x] at hz
        exact Or.inr ⟨hz, List.mem_cons_of_mem n hx⟩
    · rintro (hx | ⟨hz, hx⟩)
      · exact Or.inl (Or.inl hx)
      · rcases List.mem_cons.mp hx with rfl | hx'
        · by_cases hxn : x ∈ ns
          · refine Or.inr ⟨?_, hxn⟩
            rw [hdegtr x]
            exact hz
          · left
            right
            refine ⟨?_, rfl⟩
            have hc0 : (ns.count x : Int) = 0 := by
              rw [List.count_eq_zero_of_not_mem hxn]
              simp
            rw [hcount_n] at hz
            omega
        · refine Or.inr ⟨?_, hx'⟩
          rw [hdegtr x]
          exact hz

theorem charListLtB_irrefl : ∀ l, charListLtB l l = false := by
  intro l
  induction l with
  | nil => rfl
  | cons a as ih =>
    simp only [charListLtB, blt_false_of (show ¬ a.toNat < a.toNat by omega)]
    exact ih

theorem strLE_refl (a : String) : strLE a a := by
  rw [strLE_iff]
  exact charListLtB_irrefl a.data

theorem count_filter_of_pos {p : String → Bool} {c : String} (hp : p c = true) :
    ∀ l : List String, (l.filter p).count c = l.count c := by
  intro l
  induction l with
  | nil => simp
  | cons a as ih =>
    by_cases hac : a = c
    · subst hac
      rw [List.filter_cons_of_pos hp, List.count_cons_self, List.count_cons_self, ih]
    · by_cases hpa : p a = true
      · rw [List.filter_cons_of_pos hpa, List.count_cons, List.count_cons]
        simp [hac, ih]
      · rw [List.filter_cons_of_neg (by simpa using hpa), List.count_cons]
        simp [hac, ih]

theorem filter_mem_length_le_sum_count (ids ns : List String) :
    ((ids.filter (fun x => decide (x ∈ ns))).length ≤
      (ids.map (fun x => ns.count x)).sum) := by
  induction ids with
  | nil => simp
  | cons a as ih =>
    by_cases ha : a ∈ ns
    · rw [List.filter_cons_of_pos (by simp [ha])]
      simp only [List.length_cons, List.map_cons, List.sum_cons]
      have : 1 ≤ ns.count a := List.count_pos_iff.mpr ha
      omega
    · rw [List.filter_cons_of_neg (by simp [ha])]
      simp only [List.map_cons, List.sum_cons]
      omega

theorem sum_map_add (l : List String) (f g : String → Nat) :
    (l.map (fun x => f x + g x)).sum = (l.map f).sum + (l.map g).sum := by
  induction l with
  | nil => simp
  | cons a as ih =>
    simp only [List.map_cons, List.sum_cons, ih]
    omega

theorem mem_readyIds {steps : List PlanStep} {done : List String} {x : String} :
    x ∈ readyIds steps done ↔
      x ∈ stepIds steps ∧ x ∉ done ∧ curDeg steps done x = 0 := by
  rw [readyIds, List.mem_filter]
  rw [curDeg_zero_iff]
  simp

/-- Total remaining in-degree over all step ids, part of the loop measure. -/
def degSum (steps : List PlanStep) (inDeg : String → Int) : Nat :=
  ((stepIds steps).map (fun x => (inDeg x).toNat)).sum

/-- The loop invariant of `sortLoop`: the in-degree map tracks `curDeg`
relative to the processed prefix `acc`, the ready list is exactly the
sorted list of unprocessed zero-degree ids, and `acc` is a linearization
that always picked the smallest ready id. -/
structure SortInv (steps : List PlanStep) (inDeg : String → Int)
    (ready : List String) (acc : List String) : Prop where
  degEq : ∀ x, inDeg x = (curDeg steps acc x : Int)
  rSorted : ready.Sorted strLE
  rNodup : ready.Nodup
  rMem : ∀ x, x ∈ ready ↔ x ∈ stepIds steps ∧ x ∉ acc ∧ curDeg steps acc x = 0
  aNodup : acc.Nodup
  aSub : ∀ x ∈ acc, x ∈ stepIds steps
  aLin : ∀ k (hk : k < acc.length), ∀ s ∈ steps, s.id = acc.get ⟨k, hk⟩ →
           ∀ d ∈ s.deps, d ∈ acc.take k
  aMin : ∀ k (hk : k < acc.length),
           acc.get ⟨k, hk⟩ ∈ readyIds steps (acc.take k) ∧
           ∀ y ∈ readyIds steps (acc.take k), strLE (acc.get ⟨k, hk⟩) y

theorem SortInv.acc_closed {steps inDeg ready acc} (inv : SortInv steps inDeg ready acc) :
    ∀ x ∈ acc, ∀ s ∈ steps, s.id = x → ∀ d ∈ s.deps, d ∈ acc := by
  intro x hx s hs hid d hd
  obtain ⟨⟨k, hk⟩, hget⟩ := List.mem_iff_get.mp hx
  have := inv.aLin k hk s hs (by rw [hget, hid])
  exact List.take_subset k acc (this d hd)

/-- One iteration of the Kahn loop preserves the invariant and strictly
decreases the measure `ready.length + degSum`. -/
theorem sortInv_step (steps : List PlanStep) (inDeg : String → Int)
    (current : String) (rest acc : List String)
    (inv : SortInv steps inDeg (current :: rest) acc) :
    SortInv steps
      (processNeighbors inDeg rest (sortStrings (adjOf steps current))).1
      (processNeighbors inDeg rest (sortStrings (adjOf steps current))).2
      (acc ++ [current]) ∧
    (processNeighbors inDeg rest (sortStrings (adjOf steps current))).2.length +
      degSum steps (processNeighbors inDeg rest (sortStrings (adjOf steps current))).1 + 1
      ≤ (current :: rest).length + degSum steps inDeg := by
  obtain ⟨hcur_ids, hcur_nacc, hcur_deg0⟩ :=
    (inv.rMem current).mp (List.mem_cons_self current rest)
  have hcount_ns : ∀ x, (sortStrings (adjOf steps current)).count x
      = (adjOf steps current).count x :=
    fun x => (sortStrings_perm (adjOf steps current)).count_eq x
  have hcount_le_nat : ∀ x, (adjOf steps current).count x ≤ curDeg steps acc x := by
    intro x
    rw [count_adjOf, curDeg]
    apply List.sum_le_sum
    intro t _
    rw [← count_filter_of_pos (p := fun d => decide (d ∉ acc)) (by simp [hcur_nacc]) t.deps]
    exact List.count_le_length current _
  have hcount_le : ∀ x, ((adjOf steps current).count x : Int) ≤ inDeg x := by
    intro x
    rw [inv.degEq x]
    exact_mod_cast hcount_le_nat x
  have h1 : ∀ x, 0 ≤ inDeg x := by
    intro x
    rw [inv.degEq x]
    positivity
  have h2 : ∀ x, ((sortStrings (adjOf steps current)).count x : Int) ≤ inDeg x := by
    intro x
    rw [hcount_ns x]
    exact hcount_le x
  have h3 := (List.sorted_cons.mp inv.rSorted).2
  have h4 := (List.nodup_cons.mp inv.rNodup).2
  have hcur_rest : current ∉ rest := (List.nodup_cons.mp inv.rNodup).1
  have h5 : ∀ x ∈ rest, inDeg x = 0 := by
    intro x hx
    obtain ⟨_, _, hz⟩ := (inv.rMem x).mp (List.mem_cons_of_mem current hx)
    rw [inv.degEq x, hz]
    rfl
  obtain ⟨sp1, sp2, sp3, sp4, sp5⟩ :=
    processNeighbors_spec (sortStrings (adjOf steps current)) inDeg rest h1 h2 h3 h4 h5
  have hdegEq' : ∀ x, (processNeighbors inDeg rest (sortStrings (adjOf steps current))).1 x
      = (curDeg steps (acc ++ [current]) x : Int) := by
    intro x
    rw [sp1 x, hcount_ns x, inv.degEq x]
    have := curDeg_append steps acc current x hcur_nacc
    omega
  have hclosed := inv.acc_closed
  have hne_cur : ∀ x, x ∈ adjOf steps current → x ≠ current := by
    intro x hx he
    subst he
    obtain ⟨s, hs, hid, hdep⟩ := mem_adjOf.mp hx
    have := (curDeg_zero_iff steps acc x).mp hcur_deg0 s hs hid x hdep
    exact hcur_nacc this
  have hnacc_adj : ∀ x, x ∈ adjOf steps current → x ∉ acc := by
    intro x hx hxa
    obtain ⟨s, hs, hid, hdep⟩ := mem_adjOf.mp hx
    exact hcur_nacc (hclosed x hxa s hs hid current hdep)
  have hrMem' : ∀ x, x ∈ (processNeighbors inDeg rest (sortStrings (adjOf steps current))).2 ↔
      x ∈ stepIds steps ∧ x ∉ acc ++ [current] ∧ curDeg steps (acc ++ [current]) x = 0 := by
    intro x
    rw [sp5 x]
    constructor
    · rintro (hx | ⟨hz, hx⟩)
      · obtain ⟨hids, hnacc, hdz⟩ := (inv.rMem x).mp (List.mem_cons_of_mem current hx)
        have hxc : x ≠ current := fun he => hcur_rest (he ▸ hx)
        refine ⟨hids, by simp [hnacc, hxc], curDeg_zero_mono steps acc current x hcur_nacc hdz⟩
      · rw [sortStrings_mem] at hx
        obtain ⟨s, hs, hid, hdep⟩ := mem_adjOf.mp hx
        have hids : x ∈ stepIds steps := mem_stepIds.mpr ⟨s, hs, hid⟩
        have hz' : curDeg steps (acc ++ [current]) x = 0 := by
          have := hdegEq' x
          have h0 := sp1 x
          omega
        exact ⟨hids, by simp [hnacc_adj x hx, hne_cur x hx], hz'⟩
    · rintro ⟨hids, hnacc', hdz⟩
      have hxc : x ≠ current := by
        intro he
        subst he
        simp at hnacc'
      have hxa : x ∉ acc := by
        intro hxa
        exact hnacc' (by simp [hxa])
      by_cases hz : curDeg steps acc x = 0
      · have := (inv.rMem x).mpr ⟨hids, hxa, hz⟩
        rcases List.mem_cons.mp this with he | hr
        · exact absurd he hxc
        · exact Or.inl hr
      · right
        have happ := curDeg_append steps acc current x hcur_nacc
        have hcnt : 0 < (adjOf steps current).count x := by omega
        constructor
        · have hd := inv.degEq x
          have e3 := hcount_ns x
          rw [e3]
          omega
        · rw [sortStrings_mem]
          exact List.count_pos_iff.mp hcnt
  have haNodup' : (acc ++ [current]).Nodup := by
    simp [List.nodup_append, inv.aNodup, hcur_nacc]
  refine ⟨⟨hdegEq', sp2, sp3, hrMem', haNodup',
      ?_, ?_, ?_⟩, ?_⟩
  · intro x hx
    rcases List.mem_append.mp hx with hx | hx
    · exact inv.aSub x hx
    · rw [List.mem_singleton.mp hx]
      exact hcur_ids
  · intro k hk s hs hid d hd
    rw [List.length_append, List.length_singleton] at hk
    by_cases hklt : k < acc.length
    · have hget : (acc ++ [current]).get ⟨k, by simp; omega⟩ = acc.get ⟨k, hklt⟩ :=
        List.get_append k hklt
      rw [List.take_append_of_le_length (by omega)]
      exact inv.aLin k hklt s hs (by rw [hid, hget]) d hd
    · have hkeq : k = acc.length := by omega
      subst hkeq
      rw [List.take_append_of_le_length (by omega), List.take_length]
      have hidc : s.id = current := by
        rw [hid]
        simp
      exact (curDeg_zero_iff steps acc current).mp hcur_deg0 s hs hidc d hd
  · intro k hk
    rw [List.length_append, List.length_singleton] at hk
    by_cases hklt : k < acc.length
    · have hget : (acc ++ [current]).get ⟨k, by simp; omega⟩ = acc.get ⟨k, hklt⟩ :=
        List.get_append k hklt
      rw [List.take_append_of_le_length (by omega)]
      have := inv.aMin k hklt
      constructor
      · rw [hget]; exact this.1
      · intro y hy; rw [hget]; exact this.2 y hy
    · have hkeq : k = acc.length := by omega
      subst hkeq
      have hget : (acc ++ [current]).get ⟨acc.length, by simp⟩ = current := by simp
      rw [List.take_append_of_le_length (by omega), List.take_length, hget]
      constructor
      · exact mem_readyIds.mpr ⟨hcur_ids, hcur_nacc, hcur_deg0⟩
      · intro y hy
        obtain ⟨hyids, hynacc, hydz⟩ := mem_readyIds.mp hy
        have := (inv.rMem y).mpr ⟨hyids, hynacc, hydz⟩
        rcases List.mem_cons.mp this with he | hr
        · rw [he]; exact strLE_refl current
        · exact (List.sorted_cons.mp inv.rSorted).1 y hr
  · -- measure decrease
    have hsub : (processNeighbors inDeg rest (sortStrings (adjOf steps current))).2 ⊆
        rest ++ (stepIds steps).filter (fun x => decide (x ∈ adjOf steps current)) := by
      intro x hx
      have hids := ((hrMem' x).mp hx).1
      rcases (sp5 x).mp hx with hr | ⟨_, hn⟩
      · exact List.mem_append.mpr (Or.inl hr)
      · rw [sortStrings_mem] at hn
        exact List.mem_append.mpr (Or.inr (List.mem_filter.mpr ⟨hids, by simp [hn]⟩))
    have hdisj : ∀ x ∈ rest, x ∉ adjOf steps current := by
      intro x hx hmem
      have hz := h5 x hx
      have hle := hcount_le x
      have hpos : 0 < (adjOf steps current).count x := List.count_pos_iff.mpr hmem
      omega
    have hnodup_target : (rest ++ (stepIds steps).filter
        (fun x => decide (x ∈ adjOf steps current))).Nodup := by
      rw [List.nodup_append]
      refine ⟨h4, (stepIds_nodup steps).filter _, ?_⟩
      intro x hx hx2
      have := List.mem_filter.mp hx2
      exact hdisj x hx (by simpa using this.2)
    have hlen1 : (processNeighbors inDeg rest (sortStrings (adjOf steps current))).2.length ≤
        rest.length + ((stepIds steps).filter (fun x => decide (x ∈ adjOf steps current))).length := by
      have := (sp3.subperm hsub).length_le
      simpa using this
    have hlen2 : ((stepIds steps).filter (fun x => decide (x ∈ adjOf steps current))).length ≤
        ((stepIds steps).map (fun x => (adjOf steps current).count x)).sum :=
      filter_mem_length_le_sum_count _ _
    have hdegsum : degSum steps (processNeighbors inDeg rest (sortStrings (adjOf steps current))).1
        + ((stepIds steps).map (fun x => (adjOf steps current).count x)).sum
        = degSum steps inDeg := by
      rw [degSum, degSum, ← sum_map_add]
      congr 1
      apply List.map_congr_left
      intro x _
      have hc := hcount_le x
      have h0 := h1 x
      have hs1 := sp1 x
      rw [hcount_ns x] at hs1
      omega
    simp only [List.length_cons]
    omega

/-- Running the loop from an invariant state with enough fuel ends with an
empty ready list, an invariant final state, and the accumulator extended. -/
theorem sortLoop_spec (steps : List PlanStep) :
    ∀ (fuel : Nat) (inDeg : String → Int) (ready acc : List String),
      SortInv steps inDeg ready acc →
      ready.length + degSum steps inDeg ≤ fuel →
      ∃ inDeg', SortInv steps inDeg' [] (sortLoop steps fuel inDeg ready acc) ∧
        acc.IsPrefix (sortLoop steps fuel inDeg ready acc) := by
  intro fuel
  induction fuel with
  | zero =>
    intro inDeg ready acc inv hm
    have hready : ready = [] := by
      cases ready with
      | nil => rfl
      | cons a l => simp [List.length_cons] at hm
    subst hready
    exact ⟨inDeg, inv, List.prefix_refl _⟩
  | succ fuel ih =>
    intro inDeg ready acc inv hm
    cases ready with
    | nil => exact ⟨inDeg, inv, List.prefix_refl _⟩
    | cons current rest =>
      obtain ⟨inv', hdec⟩ := sortInv_step steps inDeg current rest acc inv
      have hm' : (processNeighbors inDeg rest (sortStrings (adjOf steps current))).2.length
          + degSum steps (processNeighbors inDeg rest (sortStrings (adjOf steps current))).1
          ≤ fuel := by
        simp only [List.length_cons] at hm hdec
        omega
      obtain ⟨inDeg', hinv, hpre⟩ := ih _ _ _ inv' hm'
      have hunf : sortLoop steps (fuel + 1) inDeg (current :: rest) acc
          = sortLoop steps fuel
              (processNeighbors inDeg rest (sortStrings (adjOf steps current))).1
              (processNeighbors inDeg rest (sortStrings (adjOf steps current))).2
              (acc ++ [current]) := rfl
      rw [hunf]
      exact ⟨inDeg', hinv, ((List.prefix_append acc [current]).trans hpre)⟩

theorem sortInv_init (steps : List PlanStep) :
    SortInv steps (inDeg0 steps)
      (sortStrings ((stepIds steps).filter (fun x => inDeg0 steps x = 0))) [] := by
  refine ⟨fun x => inDeg0_eq_curDeg steps x,
    sortStrings_sorted _,
    sortStrings_nodup ((stepIds_nodup steps).filter _),
    fun x => ?_,
    List.nodup_nil,
    by simp,
    by simp,
    by simp⟩
  rw [sortStrings_mem, List.mem_filter]
  constructor
  · rintro ⟨hids, hz⟩
    have : inDeg0 steps x = 0 := of_decide_eq_true hz
    rw [inDeg0_eq_curDeg] at this
    exact ⟨hids, by simp, by exact_mod_cast this⟩
  · rintro ⟨hids, _, hz⟩
    refine ⟨hids, ?_⟩
    rw [decide_eq_true_iff, inDeg0_eq_curDeg, hz]
    simp

theorem sum_indicator_nodup (keys : List String) (v : String) (w : Nat)
    (hnd : keys.Nodup) :
    (keys.map (fun x => if v = x then w else 0)).sum = if v ∈ keys then w else 0 := by
  induction keys with
  | nil => simp
  | cons a as ih =>
    obtain ⟨hna, hnd'⟩ := List.nodup_cons.mp hnd
    simp only [List.map_cons, List.sum_cons, ih hnd']
    by_cases hva : v = a
    · subst hva
      rw [if_pos rfl, if_neg (fun h => hna h), if_pos (List.mem_cons_self v as)]
      omega
    · rw [if_neg hva]
      by_cases hvm : v ∈ as
      · rw [if_pos hvm, if_pos (List.mem_cons_of_mem a hvm)]
        omega
      · rw [if_neg hvm, if_neg (by simp [hva, hvm])]

theorem totalDeps_cons (s : PlanStep) (ss : List PlanStep) :
    totalDeps (s :: ss) = s.deps.length + totalDeps ss := by
  have aux : ∀ (l : List PlanStep) (n : Nat),
      l.foldl (fun n t => n + t.deps.length) n
        = n + l.foldl (fun n t => n + t.deps.length) 0 := by
    intro l
    induction l with
    | nil => intro n; simp
    | cons t tl ih =>
      intro n
      simp only [List.foldl_cons]
      rw [ih (n + t.deps.length), ih (0 + t.deps.length)]
      omega
  simp only [totalDeps, List.foldl_cons]
  rw [aux ss (0 + s.deps.length)]
  omega

theorem sum_curDeg_le (steps : List PlanStep) (keys : List String)
    (hnd : keys.Nodup) :
    (keys.map (fun x => curDeg steps [] x)).sum ≤ totalDeps steps := by
  induction steps with
  | nil => simp [curDeg, totalDeps]
  | cons s ss ih =>
    have hsplit : ∀ x, curDeg (s :: ss) [] x
        = (if s.id = x then s.deps.length else 0) + curDeg ss [] x := by
      intro x
      by_cases h : s.id = x
      · rw [curDeg_cons_pos ss [] h, if_pos h]
        simp
      · rw [curDeg_cons_neg ss [] h, if_neg h]
        omega
    calc (keys.map (fun x => curDeg (s :: ss) [] x)).sum
        = (keys.map (fun x => (if s.id = x then s.deps.length else 0) + curDeg ss [] x)).sum := by
          congr 1
          exact List.map_congr_left (fun x _ => hsplit x)
      _ = (keys.map (fun x => if s.id = x then s.deps.length else 0)).sum
          + (keys.map (fun x => curDeg ss [] x)).sum := sum_map_add _ _ _
      _ ≤ s.deps.length + totalDeps ss := by
          rw [sum_indicator_nodup keys s.id s.deps.length hnd]
          have := ih
          by_cases hm : s.id ∈ keys
          · rw [if_pos hm]; omega
          · rw [if_neg hm]; omega
      _ = totalDeps (s :: ss) := (totalDeps_cons s ss).symm

theorem init_measure (steps : List PlanStep) :
    (sortStrings ((stepIds steps).filter (fun x => inDeg0 steps x = 0))).length
      + degSum steps (inDeg0 steps) ≤ steps.length + totalDeps steps := by
  have hlen : (sortStrings ((stepIds steps).filter (fun x => inDeg0 steps x = 0))).length
      ≤ steps.length := by
    rw [(sortStrings_perm _).length_eq]
    calc ((stepIds steps).filter (fun x => inDeg0 steps x = 0)).length
        ≤ (stepIds steps).length := List.length_filter_le _ _
      _ ≤ steps.length := stepIds_length_le steps
  have hdeg : degSum steps (inDeg0 steps) ≤ totalDeps steps := by
    rw [degSum]
    have : ∀ x ∈ stepIds steps, (inDeg0 steps x).toNat = curDeg steps [] x := by
      intro x _
      rw [inDeg0_eq_curDeg]
      simp
    rw [List.map_congr_left this]
    exact sum_curDeg_le steps (stepIds steps) (stepIds_nodup steps)
  omega

/-- The dependency edge relation of a step list: `DepEdge steps u v` holds
when some step named `v` declares `u` among its dependencies, i.e. `u` must
run before `v`. -/
def DepEdge (steps : List PlanStep) (u v : String) : Prop :=
  ∃ s ∈ steps, s.id = v ∧ u ∈ s.deps

/-- A dependency cycle: some id reaches itself through one or more edges. -/
def HasCycle (steps : List PlanStep) : Prop :=
  ∃ a, Relation.TransGen (DepEdge steps) a a

/-- Every declared dependency id resolves to a step in the list. -/
def ResolvedDeps (steps : List PlanStep) : Prop :=
  ∀ s ∈ steps, ∀ d ∈ s.deps, ∃ t ∈ steps, t.id = d

/-- Pigeonhole: a finite nonempty set in which every element has an
incoming edge from the set contains a cycle. -/
theorem cycle_of_progress {E : String → String → Prop} (S : List String)
    (hne : S ≠ []) (h : ∀ x ∈ S, ∃ y, y ∈ S ∧ E y x) :
    ∃ a, Relation.TransGen E a a := by
  classical
  choose f hfS hfE using h
  let g : Nat → {x // x ∈ S} := fun n =>
    Nat.rec ⟨S.head hne, List.head_mem hne⟩ (fun _ p => ⟨f p.1 p.2, hfS p.1 p.2⟩) n
  have hstep : ∀ n, E (g (n + 1)).1 (g n).1 := fun n => hfE (g n).1 (g n).2
  have hchain : ∀ i k, Relation.TransGen E (g (i + k + 1)).1 (g i).1 := by
    intro i k
    induction k with
    | zero => exact Relation.TransGen.single (hstep i)
    | succ k ih => exact Relation.TransGen.head (hstep (i + k + 1)) ih
  have hcard : (S.toFinset.card : Nat) < (Finset.range (S.toFinset.card + 1)).card := by
    simp
  have hmaps : ∀ n ∈ Finset.range (S.toFinset.card + 1), (g n).1 ∈ S.toFinset := by
    intro n _
    simp only [List.mem_toFinset]
    exact (g n).2
  obtain ⟨i, hi, j, hj, hij, heq⟩ :=
    Finset.exists_ne_map_eq_of_card_lt_of_maps_to hcard hmaps
  rcases Nat.lt_or_ge i j with hlt | hge
  · obtain ⟨k, rfl⟩ : ∃ k, j = i + k + 1 := ⟨j - i - 1, by omega⟩
    exact ⟨(g i).1, heq ▸ hchain i k⟩
  · have hlt : j < i := by omega
    obtain ⟨k, rfl⟩ : ∃ k, i = j + k + 1 := ⟨i - j - 1, by omega⟩
    exact ⟨(g j).1, heq ▸ hchain j k⟩

/-- The order produced by the main loop on the initial state built by
`TopologicalSort` for a nonempty step list. -/
def loopResult (steps : List PlanStep) : List String :=
  sortLoop steps (steps.length + totalDeps steps) (inDeg0 steps)
    (sortStrings ((stepIds steps).filter (fun x => inDeg0 steps x = 0))) []

theorem topologicalSort_eq (steps : List PlanStep) :
    TopologicalSort steps =
      if steps = [] then .ok [] else
      if (loopResult steps).length ≠ steps.length then
        .error ("topological sort: cycle detected (only " ++
          toString (loopResult steps).length ++ " of " ++ toString steps.length ++
          " steps ordered)")
      else .ok (loopResult steps) := rfl

theorem loopResult_inv (steps : List PlanStep) :
    ∃ inDeg', SortInv steps inDeg' [] (loopResult steps) := by
  obtain ⟨inDeg', hinv, _⟩ := sortLoop_spec steps (steps.length + totalDeps steps)
    (inDeg0 steps) (sortStrings ((stepIds steps).filter (fun x => inDeg0 steps x = 0))) []
    (sortInv_init steps) (init_measure steps)
  exact ⟨inDeg', hinv⟩

/-- In a final state the invariant pins down: unprocessed ids have nonzero
remaining degree. -/
theorem final_blocked {steps inDeg' accF} (inv : SortInv steps inDeg' [] accF) :
    ∀ x, x ∈ stepIds steps → x ∉ accF → curDeg steps accF x ≠ 0 := by
  intro x hids hnacc hz
  have := (inv.rMem x).mpr ⟨hids, hnacc, hz⟩
  exact absurd this (List.not_mem_nil x)

/-- Completeness: with unique ids, resolved dependencies and no cycle the
final accumulator contains every step id. -/
theorem final_complete {steps inDeg' accF} (inv : SortInv steps inDeg' [] accF)
    (hres : ResolvedDeps steps) (hacyc : ¬ HasCycle steps) :
    ∀ x ∈ stepIds steps, x ∈ accF := by
  by_contra hmiss
  push_neg at hmiss
  obtain ⟨x0, hx0ids, hx0n⟩ := hmiss
  have hS : x0 ∈ (stepIds steps).filter (fun x => decide (x ∉ accF)) := by
    simp [List.mem_filter, hx0ids, hx0n]
  apply hacyc
  apply cycle_of_progress ((stepIds steps).filter (fun x => decide (x ∉ accF)))
    (List.ne_nil_of_mem hS)
  intro x hx
  obtain ⟨hids, hnacc⟩ := List.mem_filter.mp hx
  have hnacc' : x ∉ accF := by simpa using hnacc
  have hz := final_blocked inv x hids hnacc'
  rw [Ne, curDeg_zero_iff] at hz
  push_neg at hz
  obtain ⟨s, hs, hid, d, hd, hdn⟩ := hz
  obtain ⟨t, ht, htd⟩ := hres s hs d hd
  refine ⟨d, ?_, ⟨s, hs, hid, hd⟩⟩
  simp [List.mem_filter, mem_stepIds.mpr ⟨t, ht, htd⟩, hdn]

theorem indexOf_lt_of_mem_take :
    ∀ (l : List String) (k : Nat) (d : String), d ∈ l.take k → l.indexOf d < k := by
  intro l
  induction l with
  | nil => intro k d h; simp at h
  | cons a t ih =>
    intro k d h
    cases k with
    | zero => simp at h
    | succ k =>
      rw [List.take_succ_cons] at h
      rcases List.mem_cons.mp h with rfl | h'
      · rw [List.indexOf_cons_self]
        omega
      · by_cases hda : d = a
        · subst hda
          rw [List.indexOf_cons_self]
          omega
        · rw [List.indexOf_cons_ne _ (by simpa using Ne.symm hda)]
          have := ih k d h'
          omega

theorem stepIds_eq_map_of_nodup (steps : List PlanStep)
    (h : (steps.map (fun s => s.id)).Nodup) :
    stepIds steps = steps.map (fun s => s.id) := by
  have aux : ∀ (ss : List PlanStep) (acc : List String),
      (∀ s ∈ ss, s.id ∉ acc) → (ss.map (fun s => s.id)).Nodup →
      ss.foldl (fun acc s => if s.id ∈ acc then acc else acc ++ [s.id]) acc
        = acc ++ ss.map (fun s => s.id) := by
    intro ss
    induction ss with
    | nil => intro acc _ _; simp
    | cons s tl ih =>
      intro acc hna hnd
      simp only [List.foldl_cons, List.map_cons]
      rw [if_neg (hna s (List.mem_cons_self s tl))]
      rw [ih (acc ++ [s.id]) ?_ (List.nodup_cons.mp hnd).2]
      · simp
      · intro t ht
        simp only [List.mem_append, List.mem_singleton]
        push_neg
        refine ⟨hna t (List.mem_cons_of_mem s ht), ?_⟩
        intro he
        apply (List.nodup_cons.mp hnd).1
        show s.id ∈ List.map (fun s => s.id) tl
        rw [← he]
        exact List.mem_map_of_mem (fun s => s.id) ht
  exact aux steps [] (by simp) h

theorem edge_indexOf_lt {steps inDeg' accF} (inv : SortInv steps inDeg' [] accF)
    {u v : String} (he : DepEdge steps u v) (hv : v ∈ accF) :
    u ∈ accF ∧ accF.indexOf u < accF.indexOf v := by
  obtain ⟨s, hs, hid, hu⟩ := he
  have hk : accF.indexOf v < accF.length := List.indexOf_lt_length.mpr hv
  have hget : accF.get ⟨accF.indexOf v, hk⟩ = v := List.indexOf_get hk
  have hul := inv.aLin (accF.indexOf v) hk s hs (by rw [hid, hget]) u hu
  exact ⟨List.take_subset _ _ hul, indexOf_lt_of_mem_take accF (accF.indexOf v) u hul⟩

theorem transGen_indexOf_lt {steps inDeg' accF} (inv : SortInv steps inDeg' [] accF) :
    ∀ {u v : String}, Relation.TransGen (DepEdge steps) u v → v ∈ accF →
      u ∈ accF ∧ accF.indexOf u < accF.indexOf v := by
  intro u v htg
  induction htg with
  | single h => exact fun hv => edge_indexOf_lt inv h hv
  | tail htg h ih =>
    intro hv
    obtain ⟨hb, hlt⟩ := edge_indexOf_lt inv h hv
    obtain ⟨hu, hlt'⟩ := ih hb
    exact ⟨hu, by omega⟩

theorem no_cycle_of_complete {steps inDeg' accF} (inv : SortInv steps inDeg' [] accF)
    (hall : ∀ x ∈ stepIds steps, x ∈ accF) : ¬ HasCycle steps := by
  rintro ⟨a, htg⟩
  have ha : a ∈ accF := by
    apply hall
    rw [mem_stepIds]
    cases htg with
    | single h => obtain ⟨s, hs, hid, _⟩ := h; exact ⟨s, hs, hid⟩
    | tail _ h => obtain ⟨s, hs, hid, _⟩ := h; exact ⟨s, hs, hid⟩
  obtain ⟨_, hlt⟩ := transGen_indexOf_lt inv htg ha
  omega

/-- C1: For every step list with unique ids whose dependency ids all resolve
to steps in the list and whose dependency graph is acyclic,
`TopologicalSort` returns with no error an order containing exactly as many
ids as there are input steps, in which every step appears after each of its
dependencies; for every step list containing a dependency cycle it returns
an error and no order; and for the empty step list it returns an empty
order with no error. -/
theorem C1_topologicalSort_correct :
    (∀ steps : List PlanStep, (steps.map (fun s => s.id)).Nodup →
      ResolvedDeps steps → ¬ HasCycle steps →
      ∃ ord, TopologicalSort steps = .ok ord ∧ ord.length = steps.length ∧
        ∀ s ∈ steps, ∀ d ∈ s.deps, ord.indexOf d < ord.indexOf s.id) ∧
    (∀ steps : List PlanStep, HasCycle steps →
      ∃ msg, TopologicalSort steps = .error msg) ∧
    TopologicalSort [] = .ok [] := by
  refine ⟨?_, ?_, rfl⟩
  · intro steps hnd hres hacyc
    by_cases hnil : steps = []
    · subst hnil
      exact ⟨[], rfl, rfl, by simp⟩
    · obtain ⟨inDeg', inv⟩ := loopResult_inv steps
      have hall : ∀ x ∈ stepIds steps, x ∈ loopResult steps :=
        final_complete inv hres hacyc
      have hperm : List.Perm (loopResult steps) (stepIds steps) :=
        (List.perm_ext_iff_of_nodup inv.aNodup (stepIds_nodup steps)).mpr
          (fun x => ⟨fun hx => inv.aSub x hx, fun hx => hall x hx⟩)
      have hlen : (loopResult steps).length = steps.length := by
        rw [hperm.length_eq, stepIds_eq_map_of_nodup steps hnd, List.length_map]
      refine ⟨loopResult steps, ?_, hlen, ?_⟩
      · rw [topologicalSort_eq, if_neg hnil, if_neg (by omega)]
      · intro s hs d hd
        have hv : s.id ∈ loopResult steps :=
          hall s.id (mem_stepIds.mpr ⟨s, hs, rfl⟩)
        exact (edge_indexOf_lt inv ⟨s, hs, rfl, hd⟩ hv).2
  · intro steps hcyc
    by_cases hnil : steps = []
    · exfalso
      subst hnil
      obtain ⟨a, htg⟩ := hcyc
      cases htg with
      | single h => obtain ⟨s, hs, _, _⟩ := h; exact absurd hs (List.not_mem_nil s)
      | tail _ h => obtain ⟨s, hs, _, _⟩ := h; exact absurd hs (List.not_mem_nil s)
    · by_cases hlen : (loopResult steps).length ≠ steps.length
      · exact ⟨_, by rw [topologicalSort_eq, if_neg hnil, if_pos hlen]⟩
      · exfalso
        push_neg at hlen
        obtain ⟨inDeg', inv⟩ := loopResult_inv steps
        have hsub : (loopResult steps).toFinset ⊆ (stepIds steps).toFinset := by
          intro x hx
          rw [List.mem_toFinset] at *
          exact inv.aSub x hx
        have hcards : (stepIds steps).toFinset.card ≤ (loopResult steps).toFinset.card := by
          rw [List.toFinset_card_of_nodup inv.aNodup,
              List.toFinset_card_of_nodup (stepIds_nodup steps), hlen]
          exact stepIds_length_le steps
        have heq := Finset.eq_of_subset_of_card_le hsub hcards
        have hall : ∀ x ∈ stepIds steps, x ∈ loopResult steps := by
          intro x hx
          have : x ∈ (stepIds steps).toFinset := List.mem_toFinset.mpr hx
          rw [← heq] at this
          exact List.mem_toFinset.mp this
        exact no_cycle_of_complete inv hall hcyc

/-- A two-step acyclic plan used as a concrete witness input. -/
def wSteps : List PlanStep := [{ id := "a" }, { id := "b", deps := ["a"] }]

/-- A one-step self-cycle used as a concrete witness input. -/
def wCyc : List PlanStep := [{ id := "a", deps := ["a"] }]

theorem wSteps_edge_char : ∀ u v, DepEdge wSteps u v → v = "b" ∧ u = "a" := by
  rintro u v ⟨s, hs, hid, hu⟩
  rcases List.mem_cons.mp hs with rfl | hs'
  · simp at hu
  · rcases List.mem_cons.mp hs' with rfl | hs''
    · simp at hu
      exact ⟨hid.symm, hu⟩
    · exact absurd hs'' (List.not_mem_nil s)

theorem wSteps_acyclic : ¬ HasCycle wSteps := by
  rintro ⟨x, htg⟩
  have hchar : ∀ u v, Relation.TransGen (DepEdge wSteps) u v → v = "b" ∧ u = "a" := by
    intro u v htg
    induction htg with
    | single h => exact wSteps_edge_char _ _ h
    | tail htg h ih =>
      obtain ⟨hb, _⟩ := ih
      obtain ⟨hv, hb'⟩ := wSteps_edge_char _ _ h
      rw [hb] at hb'
      exact absurd hb' (by decide)
  obtain ⟨h1, h2⟩ := hchar x x htg
  rw [h1] at h2
  exact absurd h2 (by decide)

theorem wCyc_hasCycle : HasCycle wCyc := by
  refine ⟨"a", Relation.TransGen.single ?_⟩
  exact ⟨{ id := "a", deps := ["a"] }, List.mem_cons_self _ _, rfl, List.mem_cons_self _ _⟩

theorem C1_witness :
    (∃ ord, TopologicalSort wSteps = .ok ord ∧ ord.length = wSteps.length ∧
      ∀ s ∈ wSteps, ∀ d ∈ s.deps, ord.indexOf d < ord.indexOf s.id) ∧
    (∃ msg, TopologicalSort wCyc = .error msg) := by
  constructor
  · exact C1_topologicalSort_correct.1 wSteps (by decide)
      (show ∀ s ∈ wSteps, ∀ d ∈ s.deps, ∃ t ∈ wSteps, t.id = d by decide) wSteps_acyclic
  · exact C1_topologicalSort_correct.2.1 wCyc wCyc_hasCycle

/-- C2: `TopologicalSort` is deterministic with lexicographic tie-breaking:
every position of a successfully computed order holds a ready id (all its
dependencies already ordered) that is lexicographically least among all
ready ids at that point; in particular steps `{c, a, b}` with no
dependencies sort to `[a, b, c]` and the diamond yields
`[a, b, c, d]` (first `a`, last `d`, `[b, c]` in the middle). -/
theorem C2_lexicographic_tie_break :
    (∀ (steps : List PlanStep) (ord : List String), TopologicalSort steps = .ok ord →
      ∀ k (hk : k < ord.length),
        ord.get ⟨k, hk⟩ ∈ readyIds steps (ord.take k) ∧
        ∀ y ∈ readyIds steps (ord.take k), strLE (ord.get ⟨k, hk⟩) y) ∧
    TopologicalSort [{ id := "c" }, { id := "a" }, { id := "b" }] = .ok ["a", "b", "c"] ∧
    TopologicalSort [{ id := "a" }, { id := "b", deps := ["a"] },
      { id := "c", deps := ["a"] }, { id := "d", deps := ["b", "c"] }]
      = .ok ["a", "b", "c", "d"] := by
  refine ⟨?_, rfl, rfl⟩
  intro steps ord h k hk
  rw [topologicalSort_eq] at h
  by_cases hnil : steps = []
  · rw [if_pos hnil] at h
    obtain rfl : ([] : List String) = ord := Except.ok.inj h
    simp at hk
  · rw [if_neg hnil] at h
    by_cases hlen : (loopResult steps).length ≠ steps.length
    · rw [if_pos hlen] at h
      exact absurd h (by simp)
    · rw [if_neg hlen] at h
      obtain rfl : loopResult steps = ord := Except.ok.inj h
      obtain ⟨inDeg', inv⟩ := loopResult_inv steps
      exact inv.aMin k hk

theorem C2_witness :
    TopologicalSort [{ id := "c" }, { id := "a" }, { id := "b" }] = .ok ["a", "b", "c"] ∧
    ("a" : String) ∈ readyIds [{ id := "c" }, { id := "a" }, { id := "b" }] [] ∧
    ∀ y ∈ readyIds [{ id := "c" }, { id := "a" }, { id := "b" }] [], strLE "a" y := by
  have h := C2_lexicographic_tie_break.1
    [{ id := "c" }, { id := "a" }, { id := "b" }] ["a", "b", "c"] rfl 0 (by decide)
  refine ⟨rfl, ?_, ?_⟩
  · simpa using h.1
  · simpa using h.2

/-! Embedding of the step runner (`exec.executeStep` / `exec.executeStepAttempt`).
External commands are an oracle `run : attempt → deadline → CmdBehavior`;
`time.ParseDuration` is an oracle `parse`; time is counted in abstract units
with each attempt contributing its oracle duration and each inter-retry
pause contributing `retryDelay`. -/

/-- Mirrors `exec.Options`.  `defaultTimeout` is a Go `time.Duration`
(an integer number of time units); `jobs` is the semaphore capacity. -/
structure ExecOptions where
  outDir : String := ""
  defaultTimeout : Int := 0
  jobs : Nat := 0
  failFast : Bool := false
deriving Repr, DecidableEq

/-- Mirrors `exec.StepResult`; `duration` is in abstract time units
(the Go code renders it as a string). -/
structure StepResult where
  id : String := ""
  status : String := ""
  error : String := ""
  logFile : String := ""
  duration : Nat := 0
  exitCode : Int := 0
  attempt : Nat := 0
deriving Repr, DecidableEq

/-- Behavior of one external-command invocation: whether `cmd.Run` returned
nil, the exit code and error message otherwise, and the wall-clock time the
invocation took. -/
structure CmdBehavior where
  ok : Bool
  exitCode : Int := 0
  errMsg : String := ""
  dur : Nat := 0
deriving Repr, DecidableEq

/-- The timeout selection of `executeStepAttempt` (lines setting `timeout`
and conditionally wrapping the context): start from the configured default,
override it with the parsed step timeout when the field is non-empty
(a parse failure fails the attempt), and apply a deadline only when the
resulting value is positive. -/
def effectiveTimeout (parse : String → Option Int) (defaultT : Int)
    (stepT : String) : Except String (Option Int) :=
  if stepT = "" then .ok (if defaultT > 0 then some defaultT else none)
  else
    match parse stepT with
    | none => .error "invalid timeout"
    | some t => .ok (if t > 0 then some t else none)

/-- Mirrors `exec.executeStepAttempt`: reject non-shell kinds and empty
commands before any process is launched, name the log file from the step id
and attempt number, resolve the timeout, then consult the command oracle
under that deadline. -/
def executeStepAttempt (parse : String → Option Int)
    (run : Nat → Option Int → CmdBehavior) (step : PlanStep)
    (opts : ExecOptions) (attempt : Nat) : StepResult :=
  let base : StepResult := { id := step.id, status := "failed", attempt := attempt }
  if step.kind ≠ "shell" then
    { base with error := "unsupported step type: " ++ step.kind }
  else if step.command = [] then
    { base with error := "empty command" }
  else
    let base := { base with logFile :=
      if opts.outDir ≠ "" then
        opts.outDir ++ "/" ++ step.id ++ "." ++ toString attempt ++ ".log"
      else "" }
    match effectiveTimeout parse opts.defaultTimeout step.timeout with
    | .error e => { base with error := e }
    | .ok deadline =>
      let b := run attempt deadline
      if b.ok then { base with status := "success", exitCode := 0, duration := b.dur }
      else { base with exitCode := b.exitCode, error := b.errMsg, duration := b.dur }

/-- The fixed pause between unsuccessful attempts (100ms in the source). -/
def retryDelay : Nat := 100

/-- `maxAttempts = retries + 1`, minimum 1 (`exec.executeStep`). -/
def maxAttemptsOf (retries : Int) : Nat := (max (retries + 1) 1).toNat

/-- The retry loop of `exec.executeStep`: run attempts sequentially,
short-circuit on success, stop early when the context is cancelled, pause
`retryDelay` between attempts, and record the total elapsed time since the
first attempt started in the returned result. -/
def executeStepLoop (parse : String → Option Int)
    (run : Nat → Option Int → CmdBehavior) (step : PlanStep)
    (opts : ExecOptions) (cancelled : Bool) :
    Nat → Nat → Nat → StepResult → StepResult
  | _, 0, elapsed, last => { last with duration := elapsed }
  | attempt, remaining + 1, elapsed, last =>
    let r := executeStepAttempt parse run step opts attempt
    let elapsed' := elapsed + r.duration
    if r.status = "success" then { r with duration := elapsed' }
    else if cancelled then { r with duration := elapsed' }
    else if remaining = 0 then { r with duration := elapsed' }
    else
      executeStepLoop parse run step opts cancelled (attempt + 1) remaining
        (elapsed' + retryDelay) r

/-- Mirrors `exec.executeStep`: run the retry loop starting at attempt 1. -/
def executeStep (parse : String → Option Int)
    (run : Nat → Option Int → CmdBehavior) (step : PlanStep)
    (opts : ExecOptions) (cancelled : Bool) : StepResult :=
  executeStepLoop parse run step opts cancelled 1 (maxAttemptsOf step.retries) 0
    { id := step.id }

theorem maxAttemptsOf_pos (r : Int) : 1 ≤ maxAttemptsOf r := by
  rw [maxAttemptsOf]
  omega

theorem executeStepAttempt_attempt (parse run step opts attempt) :
    (executeStepAttempt parse run step opts attempt).attempt = attempt := by
  rw [executeStepAttempt]
  split
  · rfl
  split
  · rfl
  dsimp only
  cases heff : effectiveTimeout parse opts.defaultTimeout step.timeout with
  | error e => rfl
  | ok dl =>
    dsimp only
    split <;> rfl

theorem executeStepAttempt_status (parse run step opts attempt) :
    (executeStepAttempt parse run step opts attempt).status = "success" ∨
    (executeStepAttempt parse run step opts attempt).status = "failed" := by
  rw [executeStepAttempt]
  split
  · exact Or.inr rfl
  split
  · exact Or.inr rfl
  dsimp only
  cases heff : effectiveTimeout parse opts.defaultTimeout step.timeout with
  | error e => exact Or.inr rfl
  | ok dl =>
    dsimp only
    split
    · exact Or.inl rfl
    · exact Or.inr rfl

theorem executeStepAttempt_id (parse run step opts attempt) :
    (executeStepAttempt parse run step opts attempt).id = step.id := by
  rw [executeStepAttempt]
  split
  · rfl
  split
  · rfl
  dsimp only
  cases heff : effectiveTimeout parse opts.defaultTimeout step.timeout with
  | error e => rfl
  | ok dl =>
    dsimp only
    split <;> rfl

/-- Total duration of the first `n` attempts of a step. -/
def attemptDurSum (parse : String → Option Int)
    (run : Nat → Option Int → CmdBehavior) (step : PlanStep)
    (opts : ExecOptions) (n : Nat) : Nat :=
  ((List.range n).map
    (fun i => (executeStepAttempt parse run step opts (i + 1)).duration)).sum

theorem attemptDurSum_succ (parse run step opts n) :
    attemptDurSum parse run step opts (n + 1)
      = attemptDurSum parse run step opts n
        + (executeStepAttempt parse run step opts (n + 1)).duration := by
  rw [attemptDurSum, attemptDurSum, List.range_succ]
  simp

theorem executeStepLoop_attempt_bound (parse run step opts cancelled) :
    ∀ remaining, 1 ≤ remaining → ∀ attempt elapsed last, 1 ≤ attempt →
      attempt ≤ (executeStepLoop parse run step opts cancelled
          attempt remaining elapsed last).attempt ∧
      (executeStepLoop parse run step opts cancelled
          attempt remaining elapsed last).attempt ≤ attempt + remaining - 1 := by
  intro remaining
  induction remaining with
  | zero => intro h; omega
  | succ n ih =>
    intro _ attempt elapsed last hatt
    simp only [executeStepLoop]
    have hra := executeStepAttempt_attempt parse run step opts attempt
    split
    · simp [hra]
    · split
      · simp [hra]
      · split
        · simp [hra]
        · have hn : 1 ≤ n := by
            rename_i hne
            omega
          have := ih hn (attempt + 1)
            ((elapsed + (executeStepAttempt parse run step opts attempt).duration) + retryDelay)
            (executeStepAttempt parse run step opts attempt) (by omega)
          constructor
          · have := this.1
            omega
          · have := this.2
            omega

theorem executeStepLoop_duration (parse run step opts cancelled) :
    ∀ remaining, 1 ≤ remaining → ∀ a last,
      (executeStepLoop parse run step opts cancelled (a + 1) remaining
          (attemptDurSum parse run step opts a + retryDelay * a) last).duration
        = attemptDurSum parse run step opts
            (executeStepLoop parse run step opts cancelled (a + 1) remaining
              (attemptDurSum parse run step opts a + retryDelay * a) last).attempt
          + retryDelay *
            ((executeStepLoop parse run step opts cancelled (a + 1) remaining
              (attemptDurSum parse run step opts a + retryDelay * a) last).attempt - 1) := by
  intro remaining
  induction remaining with
  | zero => intro h; omega
  | succ n ih =>
    intro _ a last
    simp only [executeStepLoop]
    have hra := executeStepAttempt_attempt parse run step opts (a + 1)
    have hsum := attemptDurSum_succ parse run step opts a
    split
    · simp only [StepResult.mk.injEq]
      simp [hra, hsum]
      ring
    · split
      · simp [hra, hsum]
        ring
      · split
        · simp [hra, hsum]
          ring
        · have hn : 1 ≤ n := by
            rename_i hne
            omega
          have harg : attemptDurSum parse run step opts a + retryDelay * a
              + (executeStepAttempt parse run step opts (a + 1)).duration + retryDelay
              = attemptDurSum parse run step opts (a + 1) + retryDelay * (a + 1) := by
            rw [hsum]
            ring
          rw [harg]
          exact ih hn (a + 1) (executeStepAttempt parse run step opts (a + 1))

theorem executeStepLoop_success (parse run step opts) :
    ∀ remaining, 1 ≤ remaining → ∀ attempt elapsed last k, 1 ≤ attempt →
      attempt ≤ k → k ≤ attempt + remaining - 1 →
      (∀ j, attempt ≤ j → j < k →
        (executeStepAttempt parse run step opts j).status ≠ "success") →
      (executeStepAttempt parse run step opts k).status = "success" →
      (executeStepLoop parse run step opts false attempt remaining elapsed last).status
        = "success" ∧
      (executeStepLoop parse run step opts false attempt remaining elapsed last).attempt
        = k := by
  intro remaining
  induction remaining with
  | zero => intro h; omega
  | succ n ih =>
    intro _ attempt elapsed last k hatt hak hka hfail hsucc
    simp only [executeStepLoop]
    by_cases hk : k = attempt
    · subst hk
      rw [if_pos hsucc]
      simp [executeStepAttempt_attempt, hsucc]
    · have hcur : (executeStepAttempt parse run step opts attempt).status ≠ "success" :=
        hfail attempt (le_refl attempt) (by omega)
      rw [if_neg hcur, if_neg (by simp)]
      have hn : 1 ≤ n := by omega
      rw [if_neg (by omega : ¬ n = 0)]
      exact ih hn (attempt + 1) _ _ k (by omega) (by omega) (by omega)
        (fun j h1 h2 => hfail j (by omega) h2) hsucc

theorem executeStepAttempt_confErr (parse run step opts attempt)
    (hcfg : step.kind ≠ "shell" ∨ step.command = []) :
    (executeStepAttempt parse run step opts attempt).status = "failed" ∧
    (executeStepAttempt parse run step opts attempt).duration = 0 ∧
    ∀ run₂, executeStepAttempt parse run step opts attempt
      = executeStepAttempt parse run₂ step opts attempt := by
  by_cases hk : step.kind = "shell"
  · have hcmd : step.command = [] := by tauto
    rw [executeStepAttempt]
    rw [if_neg (by simp [hk]), if_pos hcmd]
    refine ⟨rfl, rfl, fun run₂ => ?_⟩
    rw [executeStepAttempt, if_neg (by simp [hk]), if_pos hcmd]
  · rw [executeStepAttempt, if_pos (by simp [hk])]
    refine ⟨rfl, rfl, fun run₂ => ?_⟩
    rw [executeStepAttempt, if_pos (by simp [hk])]

theorem executeStepLoop_confErr (parse run₁ run₂ step opts)
    (hcfg : step.kind ≠ "shell" ∨ step.command = []) :
    ∀ remaining, 1 ≤ remaining → ∀ attempt elapsed last, 1 ≤ attempt →
      executeStepLoop parse run₁ step opts false attempt remaining elapsed last
        = executeStepLoop parse run₂ step opts false attempt remaining elapsed last ∧
      (executeStepLoop parse run₁ step opts false attempt remaining elapsed last).status
        = "failed" ∧
      (executeStepLoop parse run₁ step opts false attempt remaining elapsed last).attempt
        = attempt + remaining - 1 := by
  intro remaining
  induction remaining with
  | zero => intro h; omega
  | succ n ih =>
    intro _ attempt elapsed last hatt
    obtain ⟨hst1, hdur1, hind⟩ := executeStepAttempt_confErr parse run₁ step opts attempt hcfg
    have heq := (hind run₂).symm
    simp only [executeStepLoop]
    rw [heq]
    rw [if_neg (by rw [hst1]; simp), if_neg (by simp)]
    by_cases hn : n = 0
    · subst hn
      rw [if_pos rfl]
      simp [executeStepAttempt_attempt, hst1]
    · rw [if_neg hn]
      have := ih (by omega) (attempt + 1)
        (elapsed + (executeStepAttempt parse run₁ step opts attempt).duration + retryDelay)
        (executeStepAttempt parse run₁ step opts attempt) (by omega)
      refine ⟨?_, this.2.1, by rw [this.2.2]; omega⟩
      rw [this.1]
      rw [if_neg (by rw [hst1]; simp), if_neg (by simp), if_neg hn]

/-- Command oracle that fails on attempt 1 and succeeds on attempt 2. -/
def failThenOk : Nat → Option Int → CmdBehavior :=
  fun k _ =>
    if k = 1 then { ok := false, exitCode := 1, errMsg := "exit status 1", dur := 5 }
    else { ok := true, dur := 7 }

/-- A shell step with one retry, as in the retry test. -/
def retryStep : PlanStep :=
  { id := "retry-test", kind := "shell", command := ["sh", "-c", "cmd"], retries := 1 }

/-- C5: running one step with retry budget `r` makes at most `max (r+1) 1`
sequential attempts (the loop is sequential by construction); a successful
attempt short-circuits the loop; the recorded duration is the total time
across all attempts made, including the fixed inter-retry delays; and a
step with `retries = 1` failing on attempt 1 and succeeding on attempt 2
ends with status `success` and `attempt = 2`. -/
theorem C5_retry_loop :
    (∀ parse run step opts cancelled,
      1 ≤ (executeStep parse run step opts cancelled).attempt ∧
      (executeStep parse run step opts cancelled).attempt ≤ maxAttemptsOf step.retries) ∧
    (∀ parse run step opts k, 1 ≤ k → k ≤ maxAttemptsOf step.retries →
      (∀ j, 1 ≤ j → j < k →
        (executeStepAttempt parse run step opts j).status ≠ "success") →
      (executeStepAttempt parse run step opts k).status = "success" →
      (executeStep parse run step opts false).status = "success" ∧
      (executeStep parse run step opts false).attempt = k) ∧
    (∀ parse run step opts cancelled,
      (executeStep parse run step opts cancelled).duration
        = attemptDurSum parse run step opts
            (executeStep parse run step opts cancelled).attempt
          + retryDelay * ((executeStep parse run step opts cancelled).attempt - 1)) ∧
    ((executeStep (fun _ => none) failThenOk retryStep {} false).status = "success" ∧
      (executeStep (fun _ => none) failThenOk retryStep {} false).attempt = 2) := by
  refine ⟨?_, ?_, ?_, by decide, by decide⟩
  · intro parse run step opts cancelled
    rw [executeStep]
    have h := executeStepLoop_attempt_bound parse run step opts cancelled
      (maxAttemptsOf step.retries) (maxAttemptsOf_pos step.retries) 1 0
      { id := step.id } (le_refl 1)
    omega
  · intro parse run step opts k h1 h2 hfail hsucc
    rw [executeStep]
    exact executeStepLoop_success parse run step opts (maxAttemptsOf step.retries)
      (maxAttemptsOf_pos step.retries) 1 0 { id := step.id } k (le_refl 1) h1
      (by omega) (fun j hj1 hj2 => hfail j hj1 hj2) hsucc
  · intro parse run step opts cancelled
    have h0 : attemptDurSum parse run step opts 0 + retryDelay * 0 = 0 := by
      simp [attemptDurSum]
    rw [executeStep, ← h0]
    exact executeStepLoop_duration parse run step opts cancelled
      (maxAttemptsOf step.retries) (maxAttemptsOf_pos step.retries) 0 { id := step.id }

theorem C5_witness :
    (executeStep (fun _ => none) failThenOk retryStep {} false).status = "success" ∧
    (executeStep (fun _ => none) failThenOk retryStep {} false).attempt = 2 := by
  apply C5_retry_loop.2.1 (fun _ => none) failThenOk retryStep {} 2 (by decide) (by decide)
  · intro j h1 h2
    have hj : j = 1 := by omega
    subst hj
    decide
  · decide

/-- A model of `time.ParseDuration` defined only on the string `"0s"`. -/
def zeroParse : String → Option Int := fun s => if s = "0s" then some 0 else none

/-- C6 counterexample: with a defaultTimeout of 5 minutes and an explicit
step timeout string parsing to zero, the code applies no deadline at all,
not the configured default as the claim states. -/
theorem C6_counterexample :
    effectiveTimeout zeroParse 300000000000 "0s" = .ok none ∧
    (Except.ok none : Except String (Option Int)) ≠ .ok (some 300000000000) :=
  ⟨rfl, fun h => Option.noConfusion (Except.ok.inj h)⟩

/-- C6 amended: an absent timeout falls back to the configured default when
that default is positive; an explicit positive timeout overrides the
default; an explicit timeout parsing to zero (or negative), or an absent
timeout with a non-positive default, disables the deadline entirely; a
malformed timeout fails the attempt; and a valid shell step's command runs
under exactly this deadline, with a non-successful run (such as a timeout
kill) recorded as a failed attempt. -/
theorem C6_effective_timeout :
    (∀ (parse : String → Option Int) defaultT, 0 < defaultT →
      effectiveTimeout parse defaultT "" = .ok (some defaultT)) ∧
    (∀ (parse : String → Option Int) defaultT stepT t, stepT ≠ "" →
      parse stepT = some t → 0 < t →
      effectiveTimeout parse defaultT stepT = .ok (some t)) ∧
    (∀ (parse : String → Option Int) defaultT stepT t, stepT ≠ "" →
      parse stepT = some t → t ≤ 0 →
      effectiveTimeout parse defaultT stepT = .ok none) ∧
    (∀ (parse : String → Option Int) defaultT, defaultT ≤ 0 →
      effectiveTimeout parse defaultT "" = .ok none) ∧
    (∀ (parse : String → Option Int) defaultT stepT, stepT ≠ "" →
      parse stepT = none →
      effectiveTimeout parse defaultT stepT = .error "invalid timeout") ∧
    (∀ parse run step opts attempt deadline, step.kind = "shell" →
      step.command ≠ [] →
      effectiveTimeout parse opts.defaultTimeout step.timeout = .ok deadline →
      (executeStepAttempt parse run step opts attempt).status
        = (if (run attempt deadline).ok then "success" else "failed")) := by
  refine ⟨?_, ?_, ?_, ?_, ?_, ?_⟩
  · intro parse defaultT h
    rw [effectiveTimeout, if_pos rfl, if_pos h]
  · intro parse defaultT stepT t hne hp ht
    rw [effectiveTimeout, if_neg hne, hp]
    dsimp only
    rw [if_pos ht]
  · intro parse defaultT stepT t hne hp ht
    rw [effectiveTimeout, if_neg hne, hp]
    dsimp only
    rw [if_neg (show ¬ t > 0 by omega)]
  · intro parse defaultT h
    rw [effectiveTimeout, if_pos rfl, if_neg (by omega)]
  · intro parse defaultT stepT hne hp
    rw [effectiveTimeout, if_neg hne, hp]
  · intro parse run step opts attempt deadline hk hcmd heff
    rw [executeStepAttempt, if_neg (by simp [hk]), if_neg hcmd]
    dsimp only
    rw [heff]
    dsimp only
    by_cases hok : (run attempt deadline).ok
    · rw [if_pos hok, if_pos hok]
    · rw [if_neg hok, if_neg hok]

theorem C6_witness :
    effectiveTimeout zeroParse 7 "" = .ok (some 7) ∧
    effectiveTimeout (fun _ => some 9) 7 "9ns" = .ok (some 9) ∧
    effectiveTimeout (fun _ => some 0) 7 "0s" = .ok none ∧
    effectiveTimeout zeroParse 0 "" = .ok none ∧
    effectiveTimeout (fun _ => none) 7 "bogus" = .error "invalid timeout" ∧
    (executeStepAttempt zeroParse (fun _ _ => { ok := true }) retryStep {} 1).status
      = (if ((fun (_ : Nat) (_ : Option Int) => ({ ok := true } : CmdBehavior)) 1
          (none : Option Int)).ok then "success" else "failed") := by
  refine ⟨?_, ?_, ?_, ?_, ?_, ?_⟩
  · exact C6_effective_timeout.1 zeroParse 7 (by omega)
  · exact C6_effective_timeout.2.1 (fun _ => some 9) 7 "9ns" 9 (by decide) rfl (by omega)
  · exact C6_effective_timeout.2.2.1 (fun _ => some 0) 7 "0s" 0 (by decide) rfl (by omega)
  · exact C6_effective_timeout.2.2.2.1 zeroParse 0 (by omega)
  · exact C6_effective_timeout.2.2.2.2.1 (fun _ => none) 7 "bogus" (by decide) rfl
  · exact C6_effective_timeout.2.2.2.2.2 zeroParse (fun _ _ => { ok := true })
      retryStep {} 1 none rfl (by decide) rfl

/-- C7: an attempt at a step whose kind is not the supported shell kind or
whose command is empty fails without consulting the command oracle (no
process is launched), the retry loop repeats the deterministic failure, and
the final result reports status `failed` with `attempt = retries + 1` for a
non-negative retry budget. -/
theorem C7_config_error_retries :
    ∀ (parse : String → Option Int) run run₂ step opts,
      (step.kind ≠ "shell" ∨ step.command = []) → 0 ≤ step.retries →
      (executeStep parse run step opts false).status = "failed" ∧
      ((executeStep parse run step opts false).attempt : Int) = step.retries + 1 ∧
      executeStep parse run step opts false = executeStep parse run₂ step opts false := by
  intro parse run run₂ step opts hcfg hr
  have h := executeStepLoop_confErr parse run run₂ step opts hcfg
    (maxAttemptsOf step.retries) (maxAttemptsOf_pos step.retries) 1 0
    { id := step.id } (le_refl 1)
  refine ⟨by rw [executeStep]; exact h.2.1, ?_, by rw [executeStep, executeStep]; exact h.1⟩
  rw [executeStep]
  rw [h.2.2, maxAttemptsOf]
  omega

theorem C7_witness :
    (executeStep (fun _ => none) failThenOk
      { id := "p", kind := "plugin", command := ["c"], retries := 2 } {} false).status
        = "failed" ∧
    ((executeStep (fun _ => none) failThenOk
      { id := "p", kind := "plugin", command := ["c"], retries := 2 } {} false).attempt : Int)
        = ({ id := "p", kind := "plugin", command := ["c"], retries := 2 } : PlanStep).retries
          + 1 ∧
    executeStep (fun _ => none) failThenOk
      { id := "p", kind := "plugin", command := ["c"], retries := 2 } {} false
      = executeStep (fun _ => none) (fun _ _ => { ok := true })
        { id := "p", kind := "plugin", command := ["c"], retries := 2 } {} false :=
  C7_config_error_retries (fun _ => none) failThenOk (fun _ _ => { ok := true })
    { id := "p", kind := "plugin", command := ["c"], retries := 2 } {}
    (Or.inl (by decide)) (by decide)

/-! Embedding of the planner entry point `plan.Build`. -/

/-- Mirrors `config.Step` from `internal/config`; structurally identical to
`PlanStep`, which `Build` copies it into field by field. -/
structure ConfigStep where
  id : String
  kind : String := ""
  command : List String := []
  deps : List String := []
  env : List (String × String) := []
  timeout : String := ""
  retries : Int := 0
deriving Repr, DecidableEq

/-- The field-by-field copy performed by `Build` (lines 49-60). -/
def toPlanStep (s : ConfigStep) : PlanStep :=
  { id := s.id, kind := s.kind, command := s.command, deps := s.deps,
    env := s.env, timeout := s.timeout, retries := s.retries }

/-- Mirrors `plan.Plan`. -/
structure Plan where
  version : Int := 1
  projectName : String := ""
  profile : String := ""
  configHash : String := ""
  createdAt : String := ""
  steps : List PlanStep := []
  order : List String := []
deriving Repr, DecidableEq

/-- One hexadecimal digit, lowercase, as produced by `hex.EncodeToString`. -/
def hexDigit (n : Nat) : Char := "0123456789abcdef".data.getD n 'x'

/-- Two lowercase hex digits for one byte. -/
def hexByte (b : Nat) : String := String.mk [hexDigit (b / 16 % 16), hexDigit (b % 16)]

/-- Mirrors `hex.EncodeToString` over a byte list. -/
def hexEncode (bytes : List Nat) : String := String.join (bytes.map hexByte)

/-- Mirrors `plan.Build`.  The SHA-256 digest (Go standard library) is an
oracle `sha256`; the wall clock (`time.Now`) is the oracle `now`, used only
for the `created_at` stamp. -/
def Build (sha256 : List Nat → List Nat) (now : String)
    (projectName profileName : String) (steps : List ConfigStep)
    (configData : List Nat) : Except String Plan :=
  if projectName = "" then .error "build plan: project name is empty"
  else if profileName = "" then .error "build plan: profile name is empty"
  else
    let planSteps := steps.map toPlanStep
    match TopologicalSort planSteps with
    | .error e => .error ("build plan: " ++ e)
    | .ok order =>
      .ok { version := 1, projectName := projectName, profile := profileName,
            configHash := hexEncode (sha256 configData), createdAt := now,
            steps := planSteps, order := order }

/-- C8: `Build` fails with a validation error whenever the project or
profile name is empty, for every step list (the steps are not inspected);
otherwise it returns a plan whose `config_hash` is the hex encoding of the
SHA-256 digest of the raw configuration bytes and whose `order` is the
topological order of the steps; and the hash and order do not depend on
the clock, so two calls with identical inputs agree on both. -/
theorem C8_build :
    (∀ sha256 now profileName steps configData,
      Build sha256 now "" profileName steps configData
        = .error "build plan: project name is empty") ∧
    (∀ sha256 now projectName steps configData, projectName ≠ "" →
      Build sha256 now projectName "" steps configData
        = .error "build plan: profile name is empty") ∧
    (∀ sha256 now projectName profileName steps configData ord,
      projectName ≠ "" → profileName ≠ "" →
      TopologicalSort (steps.map toPlanStep) = .ok ord →
      Build sha256 now projectName profileName steps configData
        = .ok { version := 1, projectName := projectName, profile := profileName,
                configHash := hexEncode (sha256 configData), createdAt := now,
                steps := steps.map toPlanStep, order := ord }) ∧
    (∀ sha256 now₁ now₂ projectName profileName steps configData,
      (Build sha256 now₁ projectName profileName steps configData).map
          (fun p => (p.configHash, p.order))
        = (Build sha256 now₂ projectName profileName steps configData).map
          (fun p => (p.configHash, p.order))) := by
  refine ⟨?_, ?_, ?_, ?_⟩
  · intro sha256 now profileName steps configData
    rw [Build, if_pos rfl]
  · intro sha256 now projectName steps configData hp
    rw [Build, if_neg hp, if_pos rfl]
  · intro sha256 now projectName profileName steps configData ord hp hq hts
    rw [Build, if_neg hp, if_neg hq]
    dsimp only
    rw [hts]
  · intro sha256 now₁ now₂ projectName profileName steps configData
    by_cases hp : projectName = ""
    · rw [Build, Build, if_pos hp, if_pos hp]
    · by_cases hq : profileName = ""
      · rw [Build, Build, if_neg hp, if_neg hp, if_pos hq, if_pos hq]
      · rw [Build, Build, if_neg hp, if_neg hp, if_neg hq, if_neg hq]
        dsimp only
        cases TopologicalSort (steps.map toPlanStep) with
        | error e => rfl
        | ok ord => rfl

theorem C8_witness :
    Build (fun _ => [171]) "2026-01-01T00:00:00Z" "proj" "" [] [7]
        = .error "build plan: profile name is empty" ∧
    Build (fun _ => [171]) "2026-01-01T00:00:00Z" "proj" "default"
        [{ id := "a" }] [7]
      = .ok { version := 1, projectName := "proj", profile := "default",
              configHash := "ab", createdAt := "2026-01-01T00:00:00Z",
              steps := [toPlanStep { id := "a" }], order := ["a"] } := by
  constructor
  · exact C8_build.2.1 (fun _ => [171]) "2026-01-01T00:00:00Z" "proj" [] [7] (by decide)
  · have h := C8_build.2.2.1 (fun _ => [171]) "2026-01-01T00:00:00Z" "proj" "default"
      [{ id := "a" }] [7] ["a"] (by decide) (by decide) (by rfl)
    rw [h]
    rfl

/-! Embedding of the concurrent scheduler `exec.Execute` as a small-step
transition system.  One task per id in the plan's order; each scheduler
step advances one task by one atomic action (one critical section or one
select arm of the goroutine body).  The boolean in a choice selects, at a
select statement with several ready arms, whether the cancellation arm is
taken; for phases with a single continuation it is ignored.  `executeStep`
runs atomically at the `running` phase, observing the cancellation flag at
that moment (mid-run cancellation is not modelled).  Filesystem effects
(output directory creation) are modelled as always succeeding. -/

/-- Control point of one task's goroutine.  `acquire`: blocked sending on
the semaphore channel; `pollCheck`: holding a slot, reading the results map
under the mutex; `pollSleep`: holding a slot, in the 10ms/cancel select;
`depCheck`: holding a slot, reading the failed-step set; `running`: holding
a slot, inside `executeStep`; `markFailed`: result recorded as failed,
about to mark the failed-step set (and cancel under fail-fast); `done`:
goroutine returned (slot released if it was ever acquired). -/
inductive TaskPhase
  | acquire | pollCheck | pollSleep | depCheck | running | markFailed | done
deriving Repr, DecidableEq

/-- Phases during which the task holds a semaphore slot: everything after a
successful acquire and before the goroutine returns. -/
def holdsSem : TaskPhase → Bool
  | .acquire => false
  | .done => false
  | _ => true

/-- The mutable state shared by the scheduler: per-task control points, the
results map (most recent record first, as Go map writes overwrite), the
failed-step set, the cancellation flag, and the semaphore occupancy. -/
structure ExecState where
  phases : List TaskPhase
  results : List (String × StepResult)
  failed : List String
  cancelled : Bool
  semCount : Nat
deriving Repr, DecidableEq

/-- The `"execution cancelled"` skip record (exec.go lines 99-105/131-137). -/
def cancelSkip (id : String) : StepResult :=
  { id := id, status := "skipped", error := "execution cancelled",
    attempt := 0, duration := 0 }

/-- The `"dependency failed"` skip record (exec.go lines 156-162). -/
def depFailSkip (id : String) : StepResult :=
  { id := id, status := "skipped", error := "dependency failed",
    attempt := 0, duration := 0 }

/-- Go's `stepMap` lookup: last step with the given id wins, as map writes
overwrite. -/
def findStep (steps : List PlanStep) (id : String) : Option PlanStep :=
  steps.reverse.find? (fun s => s.id = id)

/-- The steps of the launched tasks, one per order entry. -/
def taskSteps (p : Plan) : List PlanStep :=
  p.order.filterMap (findStep p.steps)

/-- One scheduler step: advance task `c.1` by one atomic action, taking the
cancellation arm of its select when `c.2` is set and that arm is ready.
A choice whose task cannot act leaves the state unchanged. -/
def execAct (opts : ExecOptions) (oracle : String → Nat → Option Int → CmdBehavior)
    (parse : String → Option Int) (ts : List PlanStep)
    (s : ExecState) (c : Nat × Bool) : ExecState :=
  match ts.get? c.1, s.phases.get? c.1 with
  | some step, some ph =>
    match ph with
    | .acquire =>
      if c.2 then
        if s.cancelled then
          { s with phases := s.phases.set c.1 .done,
                   results := (step.id, cancelSkip step.id) :: s.results }
        else s
      else
        if s.semCount < opts.jobs then
          { s with phases := s.phases.set c.1 .pollCheck,
                   semCount := s.semCount + 1 }
        else s
    | .pollCheck =>
      if step.deps.all (fun d => d ∈ s.results.map Prod.fst) then
        { s with phases := s.phases.set c.1 .depCheck }
      else
        { s with phases := s.phases.set c.1 .pollSleep }
    | .pollSleep =>
      if c.2 then
        if s.cancelled then
          { s with phases := s.phases.set c.1 .done,
                   results := (step.id, cancelSkip step.id) :: s.results,
                   semCount := s.semCount - 1 }
        else s
      else
        { s with phases := s.phases.set c.1 .pollCheck }
    | .depCheck =>
      if step.deps.any (fun d => d ∈ s.failed) then
        { s with phases := s.phases.set c.1 .done,
                 results := (step.id, depFailSkip step.id) :: s.results,
                 semCount := s.semCount - 1 }
      else
        { s with phases := s.phases.set c.1 .running }
    | .running =>
      let r := executeStep parse (oracle step.id) step opts s.cancelled
      if r.status = "failed" then
        { s with phases := s.phases.set c.1 .markFailed,
                 results := (step.id, r) :: s.results }
      else
        { s with phases := s.phases.set c.1 .done,
                 results := (step.id, r) :: s.results,
                 semCount := s.semCount - 1 }
    | .markFailed =>
      { s with phases := s.phases.set c.1 .done,
               failed := step.id :: s.failed,
               cancelled := s.cancelled || opts.failFast,
               semCount := s.semCount - 1 }
    | .done => s
  | _, _ => s

/-- The state in which all tasks have just been launched. -/
def initExec (p : Plan) : ExecState :=
  { phases := (taskSteps p).map (fun _ => TaskPhase.acquire),
    results := [], failed := [], cancelled := false, semCount := 0 }

/-- Run a schedule: a list of scheduler choices, applied in order. -/
def runSched (opts : ExecOptions) (oracle : String → Nat → Option Int → CmdBehavior)
    (parse : String → Option Int) (p : Plan) (cs : List (Nat × Bool)) : ExecState :=
  cs.foldl (execAct opts oracle parse (taskSteps p)) (initExec p)

/-- Whether every launched task has returned. -/
def allDone (s : ExecState) : Bool :=
  s.phases.all (fun ph => ph = TaskPhase.done)

/-- Mirrors `exec.ExecutionResult`; the overall duration is wall-clock time
in the source and is not modelled. -/
structure ExecutionResult where
  status : String
  duration : Nat := 0
  steps : List StepResult
deriving Repr, DecidableEq

/-- The result-collection loop of `Execute` (lines 190-202): look up each
ordered id, fail on a missing entry. -/
def collectGo (results : List (String × StepResult)) :
    List String → Except String (List StepResult)
  | [] => .ok []
  | id :: rest =>
    match results.lookup id with
    | none => .error ("execute: missing result for step " ++ id)
    | some r => (collectGo results rest).map (fun l => r :: l)

/-- Collect results in plan order and compute the overall status. -/
def collectResults (p : Plan) (s : ExecState) : Except String ExecutionResult :=
  match collectGo s.results p.order with
  | .error e => .error e
  | .ok rs =>
    .ok { status := if rs.any (fun r => r.status = "failed") then "failed" else "success",
          steps := rs }

/-- Mirrors `exec.Execute`: nil-plan check, order-id structural check
(raised while launching), then the scheduler; a schedule that leaves tasks
unfinished corresponds to a run still blocked in `wg.Wait`, returned here
as `.ok none`. -/
def ExecuteModel (opts : ExecOptions)
    (oracle : String → Nat → Option Int → CmdBehavior)
    (parse : String → Option Int) (p? : Option Plan)
    (cs : List (Nat × Bool)) : Except String (Option ExecutionResult) :=
  match p? with
  | none => .error "execute: plan is nil"
  | some p =>
    match p.order.find? (fun id => (findStep p.steps id).isNone) with
    | some id => .error ("execute: step " ++ id ++ " in order but not in steps")
    | none =>
      let s := runSched opts oracle parse p cs
      if allDone s then (collectResults p s).map some else .ok none

theorem mem_map_fst_lookup {l : List (String × StepResult)} {k : String}
    (h : k ∈ l.map Prod.fst) : ∃ r, l.lookup k = some r := by
  induction l with
  | nil => simp at h
  | cons a as ih =>
    obtain ⟨ka, va⟩ := a
    by_cases hk : k = ka
    · refine ⟨va, ?_⟩
      rw [List.lookup, show (k == ka) = true from beq_iff_eq.mpr hk]
    · have hm : k ∈ as.map Prod.fst := by
        simp only [List.map_cons, List.mem_cons] at h
        tauto
      obtain ⟨r, hr⟩ := ih hm
      refine ⟨r, ?_⟩
      rw [List.lookup, show (k == ka) = false from beq_eq_false_iff_ne.mpr hk, hr]

theorem lookup_mem {l : List (String × StepResult)} {k : String} {v : StepResult}
    (h : l.lookup k = some v) : (k, v) ∈ l := by
  induction l with
  | nil => simp [List.lookup] at h
  | cons a as ih =>
    obtain ⟨ka, va⟩ := a
    rw [List.lookup] at h
    by_cases hk : k = ka
    · rw [show (k == ka) = true from beq_iff_eq.mpr hk] at h
      obtain rfl := Option.some.inj h
      simp [hk]
    · rw [show (k == ka) = false from beq_eq_false_iff_ne.mpr hk] at h
      exact List.mem_cons_of_mem _ (ih h)

theorem get?_set_self {α : Type} (l : List α) (i : Nat) (v : α) (hi : i < l.length) :
    (l.set i v).get? i = some v := by
  induction l generalizing i with
  | nil => simp at hi
  | cons a as ih =>
    cases i with
    | zero => rfl
    | succ n =>
      simp only [List.set_cons_succ, List.get?_cons_succ]
      exact ih n (by simpa using hi)

theorem get?_set_other {α : Type} (l : List α) (i j : Nat) (v : α) (h : i ≠ j) :
    (l.set i v).get? j = l.get? j := by
  induction l generalizing i j with
  | nil => simp
  | cons a as ih =>
    cases i with
    | zero =>
      cases j with
      | zero => exact absurd rfl h
      | succ m => rfl
    | succ n =>
      cases j with
      | zero => rfl
      | succ m =>
        simp only [List.set_cons_succ, List.get?_cons_succ]
        exact ih n m (fun he => h (by rw [he]))

theorem countP_set_balance (p : TaskPhase → Bool) :
    ∀ (l : List TaskPhase) (i : Nat) (v w : TaskPhase), l.get? i = some w →
      (l.set i v).countP p + (if p w then 1 else 0)
        = l.countP p + (if p v then 1 else 0) := by
  intro l
  induction l with
  | nil => intro i v w h; simp at h
  | cons a as ih =>
    intro i v w h
    cases i with
    | zero =>
      obtain rfl := Option.some.inj h
      simp only [List.set_cons_zero, List.countP_cons]
      omega
    | succ n =>
      simp only [List.get?_cons_succ] at h
      simp only [List.set_cons_succ, List.countP_cons]
      have := ih n v w h
      omega

theorem countP_pos_of_get? (p : TaskPhase → Bool) (l : List TaskPhase) (i : Nat)
    (w : TaskPhase) (h : l.get? i = some w) (hp : p w = true) : 1 ≤ l.countP p := by
  induction l generalizing i with
  | nil => simp at h
  | cons a as ih =>
    cases i with
    | zero =>
      obtain rfl := Option.some.inj h
      simp [List.countP_cons, hp]
    | succ n =>
      simp only [List.get?_cons_succ] at h
      have := ih n h
      simp only [List.countP_cons]
      omega

/-- The scheduler invariant, relative to the launched task steps `ts`, the
options and the oracles.  It ties recorded results to task phases, the
failed-step set to failed results, skip records to their causes, and the
semaphore count to the slot-holding phases. -/
structure ExecInv (opts : ExecOptions) (oracle : String → Nat → Option Int → CmdBehavior)
    (parse : String → Option Int) (ts : List PlanStep) (s : ExecState) : Prop where
  plen : s.phases.length = ts.length
  res_task : ∀ k ∈ s.results.map Prod.fst, ∃ i st ph, ts.get? i = some st ∧
      s.phases.get? i = some ph ∧ st.id = k ∧
      (ph = TaskPhase.markFailed ∨ ph = TaskPhase.done)
  res_nodup : (s.results.map Prod.fst).Nodup
  done_rec : ∀ i st ph, ts.get? i = some st → s.phases.get? i = some ph →
      (ph = TaskPhase.done ∨ ph = TaskPhase.markFailed) →
      st.id ∈ s.results.map Prod.fst
  mark_failed_res : ∀ i st, ts.get? i = some st →
      s.phases.get? i = some TaskPhase.markFailed →
      ∃ r, (st.id, r) ∈ s.results ∧ r.status = "failed"
  failed_rec : ∀ d ∈ s.failed, ∃ r, (d, r) ∈ s.results ∧ r.status = "failed"
  dep_skip : ∀ pr ∈ s.results, pr.2.status = "skipped" →
      pr.2.error = "dependency failed" →
      pr.2.attempt = 0 ∧ pr.2.duration = 0 ∧
      ∃ st ∈ ts, st.id = pr.1 ∧ ∃ d ∈ st.deps, ∃ rd, (d, rd) ∈ s.results ∧
        rd.status = "failed"
  skip_err : ∀ pr ∈ s.results, pr.2.status = "skipped" →
      (pr.2.error = "execution cancelled" ∨ pr.2.error = "dependency failed") ∧
      pr.2.attempt = 0 ∧
      (pr.2.error = "execution cancelled" → opts.failFast = true)
  run_res_ff : opts.failFast = false → ∀ pr ∈ s.results, pr.2.status ≠ "skipped" →
      ∃ st ∈ ts, st.id = pr.1 ∧ pr.2 = executeStep parse (oracle st.id) st opts false
  cancel_ff : s.cancelled = true → opts.failFast = true
  sem_eq : s.semCount = s.phases.countP holdsSem
  sem_le : s.semCount ≤ opts.jobs

theorem executeStep_status (parse run step opts cancelled) :
    (executeStep parse run step opts cancelled).status = "success" ∨
    (executeStep parse run step opts cancelled).status = "failed" := by
  rw [executeStep]
  generalize ({ id := step.id } : StepResult) = last
  generalize 1 = attempt
  generalize (0 : Nat) = elapsed
  have h1 := maxAttemptsOf_pos step.retries
  generalize hm : maxAttemptsOf step.retries = m at h1 ⊢
  clear hm
  induction m generalizing attempt elapsed last with
  | zero => omega
  | succ n ih =>
    simp only [executeStepLoop]
    rcases executeStepAttempt_status parse run step opts attempt with hs | hs
    · rw [if_pos hs]
      exact Or.inl hs
    · rw [if_neg (by rw [hs]; simp)]
      by_cases hc : cancelled = true
      · rw [if_pos hc]
        exact Or.inr hs
      · rw [if_neg hc]
        by_cases hn : n = 0
        · rw [if_pos hn]
          exact Or.inr hs
        · rw [if_neg hn]
          exact ih (executeStepAttempt parse run step opts attempt) (attempt + 1)
            (elapsed + (executeStepAttempt parse run step opts attempt).duration + retryDelay)
            (Nat.one_le_iff_ne_zero.mpr hn)

theorem nodup_map_get?_inj {ts : List PlanStep}
    (hnd : (ts.map (fun st => st.id)).Nodup) {i j : Nat} {a b : PlanStep}
    (ha : ts.get? i = some a) (hb : ts.get? j = some b) (hid : a.id = b.id) :
    i = j := by
  obtain ⟨hi, hga⟩ := List.get?_eq_some.mp ha
  obtain ⟨hj, hgb⟩ := List.get?_eq_some.mp hb
  have hinj := List.nodup_iff_injective_get.mp hnd
  have hmi : i < (ts.map (fun st => st.id)).length := by simpa using hi
  have hmj : j < (ts.map (fun st => st.id)).length := by simpa using hj
  have : (ts.map (fun st => st.id)).get ⟨i, hmi⟩ = (ts.map (fun st => st.id)).get ⟨j, hmj⟩ := by
    rw [List.get_map, List.get_map, hga, hgb]
    exact hid
  have := hinj this
  exact Fin.mk.inj_iff.mp this

/-- Structural invariant fields after an action that records a result and
moves the acting task (previously in a non-recorded phase) into `done` or
`markFailed`. -/
theorem record_structural {opts oracle parse ts} {s : ExecState}
    (hnd : (ts.map (fun st => st.id)).Nodup)
    (inv : ExecInv opts oracle parse ts s) {i : Nat} {step : PlanStep}
    {ph ph' : TaskPhase}
    (hts : ts.get? i = some step) (hph : s.phases.get? i = some ph)
    (hnotrec : ¬(ph = TaskPhase.markFailed ∨ ph = TaskPhase.done))
    (hph' : ph' = TaskPhase.markFailed ∨ ph' = TaskPhase.done)
    (r : StepResult) :
    step.id ∉ s.results.map Prod.fst ∧
    (s.phases.set i ph').length = ts.length ∧
    (∀ k ∈ ((step.id, r) :: s.results).map Prod.fst, ∃ j st ph2,
      ts.get? j = some st ∧ (s.phases.set i ph').get? j = some ph2 ∧ st.id = k ∧
      (ph2 = TaskPhase.markFailed ∨ ph2 = TaskPhase.done)) ∧
    (((step.id, r) :: s.results).map Prod.fst).Nodup ∧
    (∀ j st ph2, ts.get? j = some st → (s.phases.set i ph').get? j = some ph2 →
      (ph2 = TaskPhase.done ∨ ph2 = TaskPhase.markFailed) →
      st.id ∈ ((step.id, r) :: s.results).map Prod.fst) := by
  have hilen : i < s.phases.length := (List.get?_eq_some.mp hph).1
  have hfresh : step.id ∉ s.results.map Prod.fst := by
    intro hk
    obtain ⟨j, st, ph2, hjts, hjph, hjid, hjrec⟩ := inv.res_task step.id hk
    have hij : i = j := nodup_map_get?_inj hnd hts hjts hjid.symm
    subst hij
    rw [hph] at hjph
    obtain rfl := Option.some.inj hjph
    exact hnotrec (hjrec.elim (fun h => Or.inl h) (fun h => Or.inr h))
  refine ⟨hfresh, by simpa using inv.plen, ?_, ?_, ?_⟩
  · intro k hk
    rw [List.map_cons] at hk
    rcases List.mem_cons.mp hk with he | hm
    · exact ⟨i, step, ph', hts, get?_set_self _ _ _ hilen, he ▸ rfl, hph'⟩
    · obtain ⟨j, st, ph2, hjts, hjph, hjid, hjrec⟩ := inv.res_task k hm
      have hij : ¬ i = j := by
        intro he2
        subst he2
        rw [hph] at hjph
        obtain rfl := Option.some.inj hjph
        exact hnotrec hjrec
      exact ⟨j, st, ph2, hjts, by rw [get?_set_other _ _ _ _ hij]; exact hjph, hjid, hjrec⟩
  · simp only [List.map_cons]
    exact List.nodup_cons.mpr ⟨hfresh, inv.res_nodup⟩
  · intro j st ph2 hjts hjph hrec
    by_cases hij : i = j
    · subst hij
      rw [get?_set_self _ _ _ hilen] at hjph
      obtain rfl := Option.some.inj hjph
      rw [hts] at hjts
      obtain rfl := Option.some.inj hjts
      simp
    · rw [get?_set_other _ _ _ _ hij] at hjph
      have := inv.done_rec j st ph2 hjts hjph hrec
      simp only [List.map_cons]
      exact List.mem_cons_of_mem _ this

/-- Structural invariant fields after an action that only moves the acting
task between non-recorded phases without touching the results. -/
theorem phase_structural {opts oracle parse ts} {s : ExecState}
    (inv : ExecInv opts oracle parse ts s) {i : Nat} {step : PlanStep}
    {ph ph' : TaskPhase}
    (hts : ts.get? i = some step) (hph : s.phases.get? i = some ph)
    (hnotrec : ¬(ph = TaskPhase.markFailed ∨ ph = TaskPhase.done))
    (hph'notrec : ¬(ph' = TaskPhase.markFailed ∨ ph' = TaskPhase.done)) :
    (s.phases.set i ph').length = ts.length ∧
    (∀ k ∈ s.results.map Prod.fst, ∃ j st ph2,
      ts.get? j = some st ∧ (s.phases.set i ph').get? j = some ph2 ∧ st.id = k ∧
      (ph2 = TaskPhase.markFailed ∨ ph2 = TaskPhase.done)) ∧
    (∀ j st ph2, ts.get? j = some st → (s.phases.set i ph').get? j = some ph2 →
      (ph2 = TaskPhase.done ∨ ph2 = TaskPhase.markFailed) →
      st.id ∈ s.results.map Prod.fst) ∧
    (∀ j st, ts.get? j = some st →
      (s.phases.set i ph').get? j = some TaskPhase.markFailed →
      ∃ r, (st.id, r) ∈ s.results ∧ r.status = "failed") := by
  have hilen : i < s.phases.length := (List.get?_eq_some.mp hph).1
  refine ⟨by simpa using inv.plen, ?_, ?_, ?_⟩
  · intro k hk
    obtain ⟨j, st, ph2, hjts, hjph, hjid, hjrec⟩ := inv.res_task k hk
    have hij : ¬ i = j := by
      intro he
      subst he
      rw [hph] at hjph
      obtain rfl := Option.some.inj hjph
      exact hnotrec hjrec
    exact ⟨j, st, ph2, hjts, by rw [get?_set_other _ _ _ _ hij]; exact hjph, hjid, hjrec⟩
  · intro j st ph2 hjts hjph hrec
    by_cases hij : i = j
    · subst hij
      rw [get?_set_self _ _ _ hilen] at hjph
      obtain rfl := Option.some.inj hjph
      exact absurd (hrec.elim (fun h => Or.inr h) (fun h => Or.inl h)) hph'notrec
    · rw [get?_set_other _ _ _ _ hij] at hjph
      exact inv.done_rec j st ph2 hjts hjph hrec
  · intro j st hjts hjph
    by_cases hij : i = j
    · subst hij
      rw [get?_set_self _ _ _ hilen] at hjph
      obtain rfl := Option.some.inj hjph
      exact absurd (Or.inl rfl) hph'notrec
    · rw [get?_set_other _ _ _ _ hij] at hjph
      exact inv.mark_failed_res j st hjts hjph

theorem countP_set_same (l : List TaskPhase) (i : Nat) (v w : TaskPhase)
    (h : l.get? i = some w) (he : holdsSem v = holdsSem w) :
    (l.set i v).countP holdsSem = l.countP holdsSem := by
  have hb := countP_set_balance holdsSem l i v w h
  rw [he] at hb
  omega

theorem countP_set_incr (l : List TaskPhase) (i : Nat) (v w : TaskPhase)
    (h : l.get? i = some w) (hv : holdsSem v = true) (hw : holdsSem w = false) :
    (l.set i v).countP holdsSem = l.countP holdsSem + 1 := by
  have hb := countP_set_balance holdsSem l i v w h
  rw [hv, hw] at hb
  simp at hb
  omega

theorem countP_set_decr (l : List TaskPhase) (i : Nat) (v w : TaskPhase)
    (h : l.get? i = some w) (hv : holdsSem v = false) (hw : holdsSem w = true) :
    (l.set i v).countP holdsSem + 1 = l.countP holdsSem := by
  have hb := countP_set_balance holdsSem l i v w h
  rw [hv, hw] at hb
  simp at hb
  omega

/-- Invariant preservation for the two cancellation select arms: the acting
task records an `"execution cancelled"` skip and returns. -/
theorem cancel_record_preserves {opts : ExecOptions}
    {oracle : String → Nat → Option Int → CmdBehavior} {parse : String → Option Int}
    {ts : List PlanStep} (hnd : (ts.map (fun st => st.id)).Nodup)
    {s : ExecState} {i : Nat} {step : PlanStep} {ph : TaskPhase}
    (inv : ExecInv opts oracle parse ts s)
    (hts : ts.get? i = some step) (hph : s.phases.get? i = some ph)
    (hnotrec : ¬(ph = TaskPhase.markFailed ∨ ph = TaskPhase.done))
    (hcan : s.cancelled = true) (sem' : Nat)
    (hse : sem' = (s.phases.set i TaskPhase.done).countP holdsSem)
    (hsl : sem' ≤ opts.jobs) :
    ExecInv opts oracle parse ts
      { s with phases := s.phases.set i TaskPhase.done,
               results := (step.id, cancelSkip step.id) :: s.results,
               semCount := sem' } := by
  obtain ⟨hfresh, hplen, hres_task, hnodup, hdone⟩ :=
    record_structural hnd inv hts hph hnotrec (Or.inr rfl) (cancelSkip step.id)
  have hilen : i < s.phases.length := (List.get?_eq_some.mp hph).1
  refine ⟨hplen, hres_task, hnodup, hdone, ?_, ?_, ?_, ?_, ?_, inv.cancel_ff, hse, hsl⟩
  · intro j st hjts hjph
    by_cases hij : i = j
    · subst hij
      rw [get?_set_self s.phases i TaskPhase.done hilen] at hjph
      exact absurd (Option.some.inj hjph) (by decide)
    · rw [get?_set_other _ _ _ _ hij] at hjph
      obtain ⟨r, hrm, hrf⟩ := inv.mark_failed_res j st hjts hjph
      exact ⟨r, List.mem_cons_of_mem _ hrm, hrf⟩
  · intro d hd
    obtain ⟨r, hrm, hrf⟩ := inv.failed_rec d hd
    exact ⟨r, List.mem_cons_of_mem _ hrm, hrf⟩
  · intro pr hpr h1 h2
    rcases List.mem_cons.mp hpr with he | hm
    · subst he
      have h2' : "execution cancelled" = "dependency failed" := h2
      exact absurd h2' (by decide)
    · obtain ⟨ha, hdur, st, hst, hid, d, hdm, rd, hrdm, hrdf⟩ := inv.dep_skip pr hm h1 h2
      exact ⟨ha, hdur, st, hst, hid, d, hdm, rd, List.mem_cons_of_mem _ hrdm, hrdf⟩
  · intro pr hpr h1
    rcases List.mem_cons.mp hpr with he | hm
    · subst he
      exact ⟨Or.inl rfl, rfl, fun _ => inv.cancel_ff hcan⟩
    · exact inv.skip_err pr hm h1
  · intro hff pr hpr hne
    rcases List.mem_cons.mp hpr with he | hm
    · subst he
      exact absurd rfl hne
    · exact inv.run_res_ff hff pr hm hne

/-- Invariant preservation for actions that only move the acting task
between non-recorded phases. -/
theorem phase_only_preserves {opts : ExecOptions}
    {oracle : String → Nat → Option Int → CmdBehavior} {parse : String → Option Int}
    {ts : List PlanStep} (ph' : TaskPhase)
    {s : ExecState} {i : Nat} {step : PlanStep} {ph : TaskPhase}
    (inv : ExecInv opts oracle parse ts s)
    (hts : ts.get? i = some step) (hph : s.phases.get? i = some ph)
    (hnotrec : ¬(ph = TaskPhase.markFailed ∨ ph = TaskPhase.done))
    (hph'notrec : ¬(ph' = TaskPhase.markFailed ∨ ph' = TaskPhase.done))
    (sem' : Nat) (hse : sem' = (s.phases.set i ph').countP holdsSem)
    (hsl : sem' ≤ opts.jobs) :
    ExecInv opts oracle parse ts
      { s with phases := s.phases.set i ph', semCount := sem' } := by
  obtain ⟨hplen, hres_task, hdone, hmark⟩ := phase_structural inv hts hph hnotrec hph'notrec
  exact ⟨hplen, hres_task, inv.res_nodup, hdone, hmark, inv.failed_rec, inv.dep_skip,
    inv.skip_err, inv.run_res_ff, inv.cancel_ff, hse, hsl⟩

/-- One scheduler action preserves the invariant. -/
theorem execAct_preserves (opts : ExecOptions)
    (oracle : String → Nat → Option Int → CmdBehavior) (parse : String → Option Int)
    {ts : List PlanStep} (hnd : (ts.map (fun st => st.id)).Nodup)
    (s : ExecState) (c : Nat × Bool)
    (inv : ExecInv opts oracle parse ts s) :
    ExecInv opts oracle parse ts (execAct opts oracle parse ts s c) := by
  cases hts : ts.get? c.1 with
  | none =>
    cases hph : s.phases.get? c.1 with
    | none => simpa only [execAct, hts, hph] using inv
    | some ph => simpa only [execAct, hts, hph] using inv
  | some step =>
    cases hph : s.phases.get? c.1 with
    | none => simpa only [execAct, hts, hph] using inv
    | some ph =>
      have hilen : c.1 < s.phases.length := (List.get?_eq_some.mp hph).1
      have hmem : step ∈ ts := List.get?_mem hts
      cases ph with
      | acquire =>
        simp only [execAct, hts, hph]
        split
        · split
          · rename_i hc
            exact cancel_record_preserves hnd inv hts hph (by decide) hc s.semCount
              (by rw [countP_set_same s.phases c.1 TaskPhase.done TaskPhase.acquire hph rfl]
                  exact inv.sem_eq)
              inv.sem_le
          · exact inv
        · split
          · rename_i hsem
            refine phase_only_preserves TaskPhase.pollCheck inv hts hph (by decide) (by decide)
              (s.semCount + 1) ?_ hsem
            have hi := countP_set_incr s.phases c.1 TaskPhase.pollCheck TaskPhase.acquire hph rfl rfl
            have he := inv.sem_eq
            omega
          · exact inv
      | pollCheck =>
        simp only [execAct, hts, hph]
        split
        · exact phase_only_preserves TaskPhase.depCheck inv hts hph (by decide) (by decide)
            s.semCount
            (by rw [countP_set_same s.phases c.1 TaskPhase.depCheck TaskPhase.pollCheck hph rfl]
                exact inv.sem_eq)
            inv.sem_le
        · exact phase_only_preserves TaskPhase.pollSleep inv hts hph (by decide) (by decide)
            s.semCount
            (by rw [countP_set_same s.phases c.1 TaskPhase.pollSleep TaskPhase.pollCheck hph rfl]
                exact inv.sem_eq)
            inv.sem_le
      | pollSleep =>
        simp only [execAct, hts, hph]
        split
        · split
          · rename_i hc
            have hd := countP_set_decr s.phases c.1 TaskPhase.done TaskPhase.pollSleep hph rfl rfl
            have hpos := countP_pos_of_get? holdsSem s.phases c.1 TaskPhase.pollSleep hph rfl
            have hseq := inv.sem_eq
            exact cancel_record_preserves hnd inv hts hph (by decide) hc (s.semCount - 1)
              (by omega) (by have := inv.sem_le; omega)
          · exact inv
        · exact phase_only_preserves TaskPhase.pollCheck inv hts hph (by decide) (by decide)
            s.semCount
            (by rw [countP_set_same s.phases c.1 TaskPhase.pollCheck TaskPhase.pollSleep hph rfl]
                exact inv.sem_eq)
            inv.sem_le
      | depCheck =>
        simp only [execAct, hts, hph]
        split
        · rename_i hany
          obtain ⟨hfresh, hplen, hres_task, hnodup, hdone⟩ :=
            record_structural hnd inv hts hph (by decide) (Or.inr rfl) (depFailSkip step.id)
          have hd := countP_set_decr s.phases c.1 TaskPhase.done TaskPhase.depCheck hph rfl rfl
          have hpos := countP_pos_of_get? holdsSem s.phases c.1 TaskPhase.depCheck hph rfl
          have hseq := inv.sem_eq
          refine ⟨hplen, hres_task, hnodup, hdone, ?_, ?_, ?_, ?_, ?_, inv.cancel_ff,
            by dsimp only; omega, by dsimp only; have := inv.sem_le; omega⟩
          · intro j st hjts hjph
            by_cases hij : c.1 = j
            · subst hij
              rw [get?_set_self s.phases c.1 TaskPhase.done hilen] at hjph
              exact absurd (Option.some.inj hjph) (by decide)
            · rw [get?_set_other _ _ _ _ hij] at hjph
              obtain ⟨r, hrm, hrf⟩ := inv.mark_failed_res j st hjts hjph
              exact ⟨r, List.mem_cons_of_mem _ hrm, hrf⟩
          · intro d hdm
            obtain ⟨r, hrm, hrf⟩ := inv.failed_rec d hdm
            exact ⟨r, List.mem_cons_of_mem _ hrm, hrf⟩
          · intro pr hpr h1 h2
            rcases List.mem_cons.mp hpr with he | hm
            · subst he
              obtain ⟨d, hdm, hdf⟩ := List.any_eq_true.mp hany
              obtain ⟨rd, hrdm, hrdf⟩ := inv.failed_rec d (of_decide_eq_true hdf)
              exact ⟨rfl, rfl, step, hmem, rfl, d, hdm, rd, List.mem_cons_of_mem _ hrdm, hrdf⟩
            · obtain ⟨ha, hdur, st, hst, hid, d, hdm, rd, hrdm, hrdf⟩ :=
                inv.dep_skip pr hm h1 h2
              exact ⟨ha, hdur, st, hst, hid, d, hdm, rd, List.mem_cons_of_mem _ hrdm, hrdf⟩
          · intro pr hpr h1
            rcases List.mem_cons.mp hpr with he | hm
            · subst he
              refine ⟨Or.inr rfl, rfl, fun h => ?_⟩
              have h' : "dependency failed" = "execution cancelled" := h
              exact absurd h' (by decide)
            · exact inv.skip_err pr hm h1
          · intro hff pr hpr hne
            rcases List.mem_cons.mp hpr with he | hm
            · subst he
              exact absurd rfl hne
            · exact inv.run_res_ff hff pr hm hne
        · exact phase_only_preserves TaskPhase.running inv hts hph (by decide) (by decide)
            s.semCount
            (by rw [countP_set_same s.phases c.1 TaskPhase.running TaskPhase.depCheck hph rfl]
                exact inv.sem_eq)
            inv.sem_le
      | running =>
        simp only [execAct, hts, hph]
        split
        · rename_i hrs
          obtain ⟨hfresh, hplen, hres_task, hnodup, hdone⟩ :=
            record_structural hnd inv hts hph (by decide) (Or.inl rfl)
              (executeStep parse (oracle step.id) step opts s.cancelled)
          have hsame := countP_set_same s.phases c.1 TaskPhase.markFailed TaskPhase.running hph rfl
          refine ⟨hplen, hres_task, hnodup, hdone, ?_, ?_, ?_, ?_, ?_, inv.cancel_ff,
            by rw [hsame]; exact inv.sem_eq, inv.sem_le⟩
          · intro j st hjts hjph
            by_cases hij : c.1 = j
            · subst hij
              rw [hts] at hjts
              obtain rfl := Option.some.inj hjts
              exact ⟨executeStep parse (oracle step.id) step opts s.cancelled,
                List.mem_cons_self _ _, hrs⟩
            · rw [get?_set_other _ _ _ _ hij] at hjph
              obtain ⟨r, hrm, hrf⟩ := inv.mark_failed_res j st hjts hjph
              exact ⟨r, List.mem_cons_of_mem _ hrm, hrf⟩
          · intro d hdm
            obtain ⟨r, hrm, hrf⟩ := inv.failed_rec d hdm
            exact ⟨r, List.mem_cons_of_mem _ hrm, hrf⟩
          · intro pr hpr h1 h2
            rcases List.mem_cons.mp hpr with he | hm
            · subst he
              exact absurd (hrs.symm.trans h1) (by decide)
            · obtain ⟨ha, hdur, st, hst, hid, d, hdm, rd, hrdm, hrdf⟩ :=
                inv.dep_skip pr hm h1 h2
              exact ⟨ha, hdur, st, hst, hid, d, hdm, rd, List.mem_cons_of_mem _ hrdm, hrdf⟩
          · intro pr hpr h1
            rcases List.mem_cons.mp hpr with he | hm
            · subst he
              exact absurd (hrs.symm.trans h1) (by decide)
            · exact inv.skip_err pr hm h1
          · intro hff pr hpr hne
            rcases List.mem_cons.mp hpr with he | hm
            · subst he
              have hcf : s.cancelled = false := by
                cases hcc : s.cancelled
                · rfl
                · rw [inv.cancel_ff hcc] at hff
                  exact absurd hff (by decide)
              refine ⟨step, hmem, rfl, ?_⟩
              rw [← hcf]
            · exact inv.run_res_ff hff pr hm hne
        · rename_i hrs
          obtain ⟨hfresh, hplen, hres_task, hnodup, hdone⟩ :=
            record_structural hnd inv hts hph (by decide) (Or.inr rfl)
              (executeStep parse (oracle step.id) step opts s.cancelled)
          have hsucc : (executeStep parse (oracle step.id) step opts s.cancelled).status
              = "success" := by
            rcases executeStep_status parse (oracle step.id) step opts s.cancelled with h | h
            · exact h
            · exact absurd h hrs
          have hd := countP_set_decr s.phases c.1 TaskPhase.done TaskPhase.running hph rfl rfl
          have hpos := countP_pos_of_get? holdsSem s.phases c.1 TaskPhase.running hph rfl
          have hseq := inv.sem_eq
          refine ⟨hplen, hres_task, hnodup, hdone, ?_, ?_, ?_, ?_, ?_, inv.cancel_ff,
            by dsimp only; omega, by dsimp only; have := inv.sem_le; omega⟩
          · intro j st hjts hjph
            by_cases hij : c.1 = j
            · subst hij
              rw [get?_set_self s.phases c.1 TaskPhase.done hilen] at hjph
              exact absurd (Option.some.inj hjph) (by decide)
            · rw [get?_set_other _ _ _ _ hij] at hjph
              obtain ⟨r, hrm, hrf⟩ := inv.mark_failed_res j st hjts hjph
              exact ⟨r, List.mem_cons_of_mem _ hrm, hrf⟩
          · intro d hdm
            obtain ⟨r, hrm, hrf⟩ := inv.failed_rec d hdm
            exact ⟨r, List.mem_cons_of_mem _ hrm, hrf⟩
          · intro pr hpr h1 h2
            rcases List.mem_cons.mp hpr with he | hm
            · subst he
              exact absurd (hsucc.symm.trans h1) (by decide)
            · obtain ⟨ha, hdur, st, hst, hid, d, hdm, rd, hrdm, hrdf⟩ :=
                inv.dep_skip pr hm h1 h2
              exact ⟨ha, hdur, st, hst, hid, d, hdm, rd, List.mem_cons_of_mem _ hrdm, hrdf⟩
          · intro pr hpr h1
            rcases List.mem_cons.mp hpr with he | hm
            · subst he
              exact absurd (hsucc.symm.trans h1) (by decide)
            · exact inv.skip_err pr hm h1
          · intro hff pr hpr hne
            rcases List.mem_cons.mp hpr with he | hm
            · subst he
              have hcf : s.cancelled = false := by
                cases hcc : s.cancelled
                · rfl
                · rw [inv.cancel_ff hcc] at hff
                  exact absurd hff (by decide)
              refine ⟨step, hmem, rfl, ?_⟩
              rw [← hcf]
            · exact inv.run_res_ff hff pr hm hne
      | markFailed =>
        simp only [execAct, hts, hph]
        have hd := countP_set_decr s.phases c.1 TaskPhase.done TaskPhase.markFailed hph rfl rfl
        have hpos := countP_pos_of_get? holdsSem s.phases c.1 TaskPhase.markFailed hph rfl
        have hseq := inv.sem_eq
        refine ⟨by simpa using inv.plen, ?_, inv.res_nodup, ?_, ?_, ?_, inv.dep_skip,
          inv.skip_err, inv.run_res_ff, ?_, by dsimp only; omega,
          by dsimp only; have := inv.sem_le; omega⟩
        · intro k hk
          obtain ⟨j, st, ph2, hjts, hjph, hjid, hjrec⟩ := inv.res_task k hk
          by_cases hij : c.1 = j
          · subst hij
            exact ⟨c.1, st, TaskPhase.done, hjts,
              get?_set_self s.phases c.1 TaskPhase.done hilen, hjid, Or.inr rfl⟩
          · exact ⟨j, st, ph2, hjts, by rw [get?_set_other _ _ _ _ hij]; exact hjph,
              hjid, hjrec⟩
        · intro j st ph2 hjts hjph hrec
          by_cases hij : c.1 = j
          · subst hij
            rw [hts] at hjts
            obtain rfl := Option.some.inj hjts
            exact inv.done_rec c.1 step TaskPhase.markFailed hts hph (Or.inr rfl)
          · rw [get?_set_other _ _ _ _ hij] at hjph
            exact inv.done_rec j st ph2 hjts hjph hrec
        · intro j st hjts hjph
          by_cases hij : c.1 = j
          · subst hij
            rw [get?_set_self s.phases c.1 TaskPhase.done hilen] at hjph
            exact absurd (Option.some.inj hjph) (by decide)
          · rw [get?_set_other _ _ _ _ hij] at hjph
            exact inv.mark_failed_res j st hjts hjph
        · intro d hdm
          rcases List.mem_cons.mp hdm with he | hm
          · subst he
            exact inv.mark_failed_res c.1 step hts hph
          · exact inv.failed_rec d hm
        · intro h
          rcases (Bool.or_eq_true _ _).mp h with h1 | h1
          · exact inv.cancel_ff h1
          · exact h1
      | done =>
        simp only [execAct, hts, hph]
        exact inv

theorem countP_map_const_acquire (l : List PlanStep) :
    (l.map (fun _ => TaskPhase.acquire)).countP holdsSem = 0 := by
  induction l with
  | nil => rfl
  | cons a as ih =>
    simp only [List.map_cons, List.countP_cons, ih]
    rfl

/-- The freshly launched state satisfies the invariant. -/
theorem initExec_inv (opts : ExecOptions)
    (oracle : String → Nat → Option Int → CmdBehavior) (parse : String → Option Int)
    (p : Plan) : ExecInv opts oracle parse (taskSteps p) (initExec p) := by
  refine ⟨?_, ?_, ?_, ?_, ?_, ?_, ?_, ?_, ?_, ?_, ?_, ?_⟩
  · simp [initExec]
  · intro k hk
    simp [initExec] at hk
  · simp [initExec]
  · intro j st ph2 hjts hjph hrec
    simp only [initExec, List.get?_map, hjts] at hjph
    have h2 : ph2 = TaskPhase.acquire := by
      have h3 := (Option.some.inj hjph).symm
      simpa using h3
    subst h2
    rcases hrec with h | h <;> simp at h
  · intro j st hjts hjph
    simp only [initExec, List.get?_map, hjts] at hjph
    have h2 := Option.some.inj hjph
    simp at h2
  · intro d hd
    simp [initExec] at hd
  · intro pr hpr
    simp [initExec] at hpr
  · intro pr hpr
    simp [initExec] at hpr
  · intro hff pr hpr
    simp [initExec] at hpr
  · intro h
    simp [initExec] at h
  · show (0:Nat) = ((taskSteps p).map (fun _ => TaskPhase.acquire)).countP holdsSem
    rw [countP_map_const_acquire]
  · exact Nat.zero_le _

/-- Every state reachable by a schedule satisfies the invariant. -/
theorem runSched_inv (opts : ExecOptions)
    (oracle : String → Nat → Option Int → CmdBehavior) (parse : String → Option Int)
    (p : Plan) (hnd : ((taskSteps p).map (fun st => st.id)).Nodup)
    (cs : List (Nat × Bool)) :
    ExecInv opts oracle parse (taskSteps p) (runSched opts oracle parse p cs) := by
  rw [runSched]
  have h : ∀ (s : ExecState), ExecInv opts oracle parse (taskSteps p) s →
      ExecInv opts oracle parse (taskSteps p)
        (cs.foldl (execAct opts oracle parse (taskSteps p)) s) := by
    induction cs with
    | nil => intro s hs; exact hs
    | cons a as ih =>
      intro s hs
      exact ih _ (execAct_preserves opts oracle parse hnd s a hs)
  exact h (initExec p) (initExec_inv opts oracle parse p)

theorem findStep_id {steps : List PlanStep} {id : String} {st : PlanStep}
    (h : findStep steps id = some st) : st.id = id := by
  have h' : steps.reverse.find? (fun s => s.id = id) = some st := h
  have := List.find?_some h'
  exact of_decide_eq_true this

theorem taskSteps_ids_eq (steps : List PlanStep) (order : List String) :
    (order.filterMap (findStep steps)).map (fun st => st.id)
      = order.filter (fun id => (findStep steps id).isSome) := by
  induction order with
  | nil => rfl
  | cons a as ih =>
    rw [List.filterMap_cons, List.filter_cons]
    cases hf : findStep steps a with
    | none => simpa [hf] using ih
    | some st =>
      rw [List.map_cons, ih, findStep_id hf]
      simp [hf]

theorem taskSteps_ids_nodup (p : Plan) (hnd : p.order.Nodup) :
    ((taskSteps p).map (fun st => st.id)).Nodup := by
  rw [taskSteps, taskSteps_ids_eq]
  exact List.Nodup.filter _ hnd

theorem nodup_map_mem_inj {ts : List PlanStep}
    (hnd : (ts.map (fun st => st.id)).Nodup) {a b : PlanStep}
    (ha : a ∈ ts) (hb : b ∈ ts) (hid : a.id = b.id) : a = b := by
  obtain ⟨i, hi⟩ := List.get?_of_mem ha
  obtain ⟨j, hj⟩ := List.get?_of_mem hb
  have he := nodup_map_get?_inj hnd hi hj hid
  subst he
  rw [hi] at hj
  exact Option.some.inj hj

theorem countP_le_countP (l : List TaskPhase) (p q : TaskPhase → Bool)
    (h : ∀ a, p a = true → q a = true) : l.countP p ≤ l.countP q := by
  induction l with
  | nil => exact Nat.le_refl _
  | cons a as ih =>
    simp only [List.countP_cons]
    by_cases hp : p a = true
    · rw [hp, h a hp]
      omega
    · have : (if p a then 1 else 0) = 0 := by
        rw [show p a = false from Bool.eq_false_iff.mpr hp]
        rfl
      rw [this]
      omega

theorem collectGo_ok (results : List (String × StepResult)) :
    ∀ order : List String, (∀ id ∈ order, (results.lookup id).isSome = true) →
      ∃ rs, collectGo results order = .ok rs ∧ rs.length = order.length := by
  intro order
  induction order with
  | nil => intro h; exact ⟨[], rfl, rfl⟩
  | cons a as ih =>
    intro h
    have ha := h a (List.mem_cons_self a as)
    cases hl : results.lookup a with
    | none =>
      rw [hl] at ha
      exact absurd ha (by decide)
    | some r =>
      obtain ⟨rs, hrs, hlen⟩ := ih (fun id hid => h id (List.mem_cons_of_mem _ hid))
      refine ⟨r :: rs, ?_, by simp [hlen]⟩
      rw [collectGo, hl, hrs]
      rfl

/-- When every order id resolves and every task has returned, every order id
has a recorded result. -/
theorem allDone_lookup (opts : ExecOptions)
    (oracle : String → Nat → Option Int → CmdBehavior) (parse : String → Option Int)
    {p : Plan} {s : ExecState}
    (inv : ExecInv opts oracle parse (taskSteps p) s)
    (hall : p.order.all (fun id => (findStep p.steps id).isSome) = true)
    (hdone : allDone s = true) :
    ∀ id ∈ p.order, (s.results.lookup id).isSome = true := by
  intro id hid
  have hsome : (findStep p.steps id).isSome = true := List.all_eq_true.mp hall id hid
  cases hf : findStep p.steps id with
  | none =>
    rw [hf] at hsome
    exact absurd hsome (by decide)
  | some st =>
    have hmem : st ∈ taskSteps p := by
      rw [taskSteps]
      exact List.mem_filterMap.mpr ⟨id, hid, hf⟩
    obtain ⟨j, hj⟩ := List.get?_of_mem hmem
    have hjlen : j < s.phases.length := by
      rw [inv.plen]
      exact (List.get?_eq_some.mp hj).1
    obtain ⟨ph, hph⟩ : ∃ ph, s.phases.get? j = some ph := by
      cases hp : s.phases.get? j with
      | none =>
        have := List.get?_eq_none.mp hp
        omega
      | some ph => exact ⟨ph, rfl⟩
    have hphd : ph = TaskPhase.done := by
      rw [allDone] at hdone
      exact of_decide_eq_true (List.all_eq_true.mp hdone ph (List.get?_mem hph))
    have hkeys := inv.done_rec j st ph hj hph (Or.inl hphd)
    rw [findStep_id hf] at hkeys
    obtain ⟨r, hr⟩ := mem_map_fst_lookup hkeys
    rw [hr]
    rfl

/-- Demonstration command oracle: the step `"failing"` exits 1, every other
step succeeds immediately. -/
def oDemo : String → Nat → Option Int → CmdBehavior :=
  fun id _ _ =>
    if id = "failing" then { ok := false, exitCode := 1, errMsg := "exit status 1" }
    else { ok := true }

/-- Demonstration duration parser (no step below sets a timeout). -/
def parse0 : String → Option Int := fun _ => none

def stFailing : PlanStep :=
  { id := "failing", kind := "shell", command := ["false"] }

def stDependent : PlanStep :=
  { id := "dependent", kind := "shell", command := ["echo"], deps := ["failing"] }

def stC : PlanStep :=
  { id := "c", kind := "shell", command := ["echo"], deps := ["dependent"] }

/-- The two-step plan of `TestExecute_DependencySkip`. -/
def pAB : Plan :=
  { steps := [stFailing, stDependent], order := ["failing", "dependent"] }

/-- A three-step chain: `c` depends on `dependent`, which depends on
`failing`. -/
def pChain : Plan :=
  { steps := [stFailing, stDependent, stC],
    order := ["failing", "dependent", "c"] }

def optsFF : ExecOptions := { jobs := 4, failFast := false }

def opts1 : ExecOptions := { jobs := 1, failFast := true }

def optsFFT : ExecOptions := { jobs := 3, failFast := true }

/-- Schedule on `pAB` (fail-fast off): `failing` runs to completion and is
marked failed, then `dependent` observes the failure and is skipped. -/
def csSkip : List (Nat × Bool) :=
  [(0,false),(0,false),(0,false),(0,false),(0,false),(1,false),(1,false),(1,false)]

/-- Schedule on `pAB` exhibiting the mark-after-record race: `failing`
records its failed result but is preempted before updating the failed-step
set; `dependent` then passes both the completion poll and the failure check
and runs its command. -/
def csRace : List (Nat × Bool) :=
  [(0,false),(0,false),(0,false),(0,false),
   (1,false),(1,false),(1,false),(1,false),(0,false)]

/-- Schedule on `pChain` (fail-fast on): `failing` fails and cancels,
`dependent` is skipped with `"dependency failed"`, and `c` takes the
cancellation arm of its semaphore acquire. -/
def cs10 : List (Nat × Bool) :=
  [(0,false),(0,false),(0,false),(0,false),(0,false),
   (1,false),(1,false),(1,false),(2,true)]

/-- Schedule on `pChain` (fail-fast off): after `failing` fails and
`dependent` is skipped, `c` proceeds to run its command. -/
def csW10 : List (Nat × Bool) :=
  [(0,false),(0,false),(0,false),(0,false),(0,false),
   (1,false),(1,false),(1,false),
   (2,false),(2,false),(2,false),(2,false)]

/-- C3: in Execute, a step all of whose dependencies have reached a terminal
state, at least one with terminal status failed, is never run and records a
`"dependency failed"` skip with zero attempts, regardless of failFast —
REFUTED as stated: `Execute` records a failed result before marking the
failed-step set, so a dependent checking between the two writes passes the
failure check and runs its command.  On the `TestExecute_DependencySkip`
plan, with fail-fast off, after four actions of `failing` its failed result
is recorded (its dependency has terminally failed) while the failed-step
set is still empty; `dependent` then completes its poll and failure check
and executes, recording `"success"` and attempt 1 instead of the claimed
skip. -/
theorem C3_counterexample :
    (runSched optsFF oDemo parse0 pAB (csRace.take 4)).results.lookup "failing"
        = some { id := "failing", status := "failed", error := "exit status 1",
                 exitCode := 1, attempt := 1 } ∧
    (runSched optsFF oDemo parse0 pAB (csRace.take 4)).failed = [] ∧
    allDone (runSched optsFF oDemo parse0 pAB csRace) = true ∧
    (runSched optsFF oDemo parse0 pAB csRace).results.lookup "dependent"
        = some { id := "dependent", status := "success", attempt := 1 } ∧
    optsFF.failFast = false := by
  exact ⟨by decide, by decide, by decide, by decide, rfl⟩

/-- C3 (amended): in every reachable state of `Execute`, a recorded
`"dependency failed"` skip has zero attempts and zero duration and is
justified by a dependency of its step whose recorded result is failed; and
when failFast is off every skipped result is such a dependency-failed skip
(the `"execution cancelled"` variant is impossible).  The unconditional
"never run" and failFast-independence parts of the claim are refuted by
`C3_counterexample`. -/
theorem C3_dependency_skip (opts : ExecOptions)
    (oracle : String → Nat → Option Int → CmdBehavior) (parse : String → Option Int)
    (p : Plan) (hnd : p.order.Nodup) (cs : List (Nat × Bool)) :
    (∀ pr ∈ (runSched opts oracle parse p cs).results,
        pr.2.status = "skipped" → pr.2.error = "dependency failed" →
        pr.2.attempt = 0 ∧ pr.2.duration = 0 ∧
        ∃ st ∈ taskSteps p, st.id = pr.1 ∧ ∃ d ∈ st.deps,
          ∃ rd, (d, rd) ∈ (runSched opts oracle parse p cs).results ∧
            rd.status = "failed") ∧
    (opts.failFast = false → ∀ pr ∈ (runSched opts oracle parse p cs).results,
        pr.2.status = "skipped" →
        pr.2.error = "dependency failed" ∧ pr.2.attempt = 0) := by
  have inv := runSched_inv opts oracle parse p (taskSteps_ids_nodup p hnd) cs
  constructor
  · intro pr hpr h1 h2
    exact inv.dep_skip pr hpr h1 h2
  · intro hff pr hpr h1
    obtain ⟨herr, hatt, hcf⟩ := inv.skip_err pr hpr h1
    rcases herr with he | he
    · rw [hcf he] at hff
      exact absurd hff (by decide)
    · exact ⟨he, hatt⟩

theorem C3_witness :
    ("dependent", depFailSkip "dependent")
        ∈ (runSched optsFF oDemo parse0 pAB csSkip).results ∧
    (depFailSkip "dependent").error = "dependency failed" ∧
    (depFailSkip "dependent").attempt = 0 := by
  have h := (C3_dependency_skip optsFF oDemo parse0 pAB (by decide) csSkip).2 rfl
      ("dependent", depFailSkip "dependent") (by decide) rfl
  exact ⟨by decide, h.1, h.2⟩

/-- A plan whose order names a step that does not exist. -/
def pBad : Plan := { order := ["x"], steps := [] }

/-- C4: Execute errors only for a nil plan or an order id with no recorded
result after all tasks finish — REFUTED as stated: an order id with no
matching step raises a third error, `"execute: step x in order but not in
steps"`, before any task runs, and its message is neither of the two listed
categories. -/
theorem C4_counterexample :
    ExecuteModel optsFF oDemo parse0 (some pBad) []
        = .error "execute: step x in order but not in steps" ∧
    "execute: step x in order but not in steps" ≠ "execute: plan is nil" ∧
    "execute: step x in order but not in steps"
        ≠ "execute: missing result for step x" := by
  exact ⟨rfl, by decide, by decide⟩

/-- C4 (amended): Execute returns a Go error for a nil plan and for an
order id with no matching step; when every order id resolves (and order ids
are unique), no run returns an error — a completed run yields an
ExecutionResult with one step result per order entry whose overall status
is `"failed"` exactly when some step result is failed and `"success"`
otherwise.  Step failures thus never surface as a Go error. -/
theorem C4_execute_errors (opts : ExecOptions)
    (oracle : String → Nat → Option Int → CmdBehavior) (parse : String → Option Int) :
    (∀ cs, ExecuteModel opts oracle parse none cs = .error "execute: plan is nil") ∧
    (∀ (p : Plan) (cs : List (Nat × Bool)) (id : String),
      p.order.find? (fun i => (findStep p.steps i).isNone) = some id →
      ExecuteModel opts oracle parse (some p) cs =
        .error ("execute: step " ++ id ++ " in order but not in steps")) ∧
    (∀ (p : Plan) (cs : List (Nat × Bool)), p.order.Nodup →
      p.order.all (fun i => (findStep p.steps i).isSome) = true →
      ∃ r, ExecuteModel opts oracle parse (some p) cs = .ok r ∧
        ∀ res, r = some res →
          res.steps.length = p.order.length ∧
          (res.status = "failed" ↔ res.steps.any (fun sr => sr.status = "failed") = true) ∧
          (res.status = "failed" ∨ res.status = "success")) := by
  refine ⟨fun cs => rfl, ?_, ?_⟩
  · intro p cs id hf
    simp only [ExecuteModel, hf]
  · intro p cs hnd hall
    have hfnone : p.order.find? (fun i => (findStep p.steps i).isNone) = none := by
      rw [List.find?_eq_none]
      intro x hx
      have hs := List.all_eq_true.mp hall x hx
      cases hfx : findStep p.steps x with
      | none =>
        rw [hfx] at hs
        simp at hs
      | some st => simp
    by_cases hdone : allDone (runSched opts oracle parse p cs) = true
    · have inv := runSched_inv opts oracle parse p (taskSteps_ids_nodup p hnd) cs
      have hlk := allDone_lookup opts oracle parse inv hall hdone
      obtain ⟨rs, hrs, hlen⟩ := collectGo_ok _ _ hlk
      refine ⟨some { status := if rs.any (fun r => r.status = "failed") then "failed"
                               else "success", steps := rs }, ?_, ?_⟩
      · simp only [ExecuteModel, hfnone]
        rw [if_pos hdone]
        rw [collectResults, hrs]
        rfl
      · intro res hres
        obtain rfl := Option.some.inj hres
        refine ⟨hlen, ?_, ?_⟩
        · by_cases hany : rs.any (fun r => r.status = "failed") = true
          · rw [if_pos hany]
            exact ⟨fun _ => hany, fun _ => rfl⟩
          · rw [if_neg hany]
            constructor
            · intro h
              have h2 : ("success" : String) = "failed" := h
              exact absurd h2 (by decide)
            · intro h
              exact absurd h hany
        · by_cases hany : rs.any (fun r => r.status = "failed") = true
          · rw [if_pos hany]
            exact Or.inl rfl
          · rw [if_neg hany]
            exact Or.inr rfl
    · refine ⟨none, ?_, ?_⟩
      · simp only [ExecuteModel, hfnone]
        rw [if_neg hdone]
      · intro res hres
        exact absurd hres (by simp)

theorem C4_witness :
    pAB.order.Nodup ∧
    (∃ r, ExecuteModel optsFF oDemo parse0 (some pAB) csSkip = .ok r ∧
      ∀ res, r = some res →
        res.steps.length = pAB.order.length ∧
        (res.status = "failed" ↔ res.steps.any (fun sr => sr.status = "failed") = true) ∧
        (res.status = "failed" ∨ res.status = "success")) := by
  exact ⟨by decide,
    (C4_execute_errors optsFF oDemo parse0).2.2 pAB csSkip (by decide) (by decide)⟩

/-- C9: a task still waiting on its dependencies holds no concurrency
slot — REFUTED: the semaphore is acquired before the dependency poll, so a
polling task occupies a slot.  With one job on the `pAB` plan, after
`dependent` acquires the slot and enters its dependency-wait sleep, the
semaphore is full (`semCount = jobs = 1`) with no command running and no
result recorded, and `failing` cannot acquire a slot (its acquire action is
a no-op), even though `dependent` is only polling for its dependency. -/
theorem C9_counterexample :
    (runSched opts1 oDemo parse0 pAB [(1,false),(1,false)]).phases
        = [TaskPhase.acquire, TaskPhase.pollSleep] ∧
    (runSched opts1 oDemo parse0 pAB [(1,false),(1,false)]).results = [] ∧
    (runSched opts1 oDemo parse0 pAB [(1,false),(1,false)]).semCount = opts1.jobs ∧
    execAct opts1 oDemo parse0 (taskSteps pAB)
        (runSched opts1 oDemo parse0 pAB [(1,false),(1,false)]) (0,false)
      = runSched opts1 oDemo parse0 pAB [(1,false),(1,false)] := by
  exact ⟨by decide, by decide, by decide, by decide⟩

/-- C9 (amended): in every reachable state of `Execute` the number of tasks
inside `executeStep` is at most the number of held semaphore slots, which
equals `semCount` and never exceeds the jobs bound — so at most
maxConcurrency commands execute at any moment; but the slot is held from
the successful acquire until the goroutine returns, including the whole
dependency wait, so a polling task does count against the bound
(`C9_counterexample`). -/
theorem C9_concurrency (opts : ExecOptions)
    (oracle : String → Nat → Option Int → CmdBehavior) (parse : String → Option Int)
    (p : Plan) (hnd : p.order.Nodup) (cs : List (Nat × Bool)) :
    (runSched opts oracle parse p cs).phases.countP
        (fun ph => ph = TaskPhase.running) ≤ opts.jobs ∧
    (runSched opts oracle parse p cs).semCount
        = (runSched opts oracle parse p cs).phases.countP holdsSem ∧
    (runSched opts oracle parse p cs).semCount ≤ opts.jobs := by
  have inv := runSched_inv opts oracle parse p (taskSteps_ids_nodup p hnd) cs
  refine ⟨?_, inv.sem_eq, inv.sem_le⟩
  have hmono := countP_le_countP (runSched opts oracle parse p cs).phases
      (fun ph => ph = TaskPhase.running) holdsSem (fun a ha => by
        have h := of_decide_eq_true ha
        subst h
        rfl)
  have hle := inv.sem_le
  rw [inv.sem_eq] at hle
  exact Nat.le_trans hmono hle

theorem C9_witness :
    (runSched opts1 oDemo parse0 pAB [(1,false),(1,false)]).phases.countP
        (fun ph => ph = TaskPhase.running) ≤ opts1.jobs ∧
    (runSched opts1 oDemo parse0 pAB [(1,false),(1,false)]).semCount
        = (runSched opts1 oDemo parse0 pAB [(1,false),(1,false)]).phases.countP holdsSem ∧
    (runSched opts1 oDemo parse0 pAB [(1,false),(1,false)]).semCount ≤ opts1.jobs :=
  C9_concurrency opts1 oDemo parse0 pAB (by decide) [(1,false),(1,false)]

/-- C10: a step whose dependencies all reached a terminal state with none
failed proceeds to execute its command — REFUTED as stated: under fail-fast
the cancellation raised by an unrelated failure can pre-empt such a step.
On the chain `failing ← dependent ← c` with fail-fast on, after `failing`
fails (cancelling) and `dependent` is skipped with `"dependency failed"`,
the step `c` — whose only dependency `dependent` is terminal and not
failed — takes the cancellation arm while acquiring its slot and is
recorded as `"skipped"`/`"execution cancelled"` without ever running. -/
theorem C10_counterexample :
    allDone (runSched optsFFT oDemo parse0 pChain cs10) = true ∧
    stC.deps = ["dependent"] ∧
    (runSched optsFFT oDemo parse0 pChain cs10).results.lookup "dependent"
        = some (depFailSkip "dependent") ∧
    (depFailSkip "dependent").status ≠ "failed" ∧
    (runSched optsFFT oDemo parse0 pChain cs10).results.lookup "c"
        = some (cancelSkip "c") ∧
    (cancelSkip "c").status = "skipped" ∧
    (cancelSkip "c").error = "execution cancelled" ∧
    (cancelSkip "c").attempt = 0 := by
  exact ⟨by decide, rfl, by decide, by decide, by decide, rfl, rfl, rfl⟩

/-- C10 (amended): with fail-fast off, a skipped dependency never cascades:
in any reachable state, a recorded result for a step none of whose
dependencies has a failed recorded result is exactly the outcome of running
the step's command through `executeStep` — only a failed dependency (never
a skipped one) produces the dependency-failed skip.  Under fail-fast the
conclusion fails as stated (`C10_counterexample`). -/
theorem C10_skip_no_cascade (opts : ExecOptions)
    (oracle : String → Nat → Option Int → CmdBehavior) (parse : String → Option Int)
    (p : Plan) (hff : opts.failFast = false) (hnd : p.order.Nodup)
    (cs : List (Nat × Bool)) :
    ∀ pr ∈ (runSched opts oracle parse p cs).results, ∀ st ∈ taskSteps p,
      st.id = pr.1 →
      (∀ d ∈ st.deps, ∀ prd ∈ (runSched opts oracle parse p cs).results,
        prd.1 = d → prd.2.status ≠ "failed") →
      pr.2 = executeStep parse (oracle st.id) st opts false := by
  have hndt := taskSteps_ids_nodup p hnd
  have inv := runSched_inv opts oracle parse p hndt cs
  intro pr hpr st hst hid hdeps
  by_cases hsk : pr.2.status = "skipped"
  · obtain ⟨herr, hatt, hcf⟩ := inv.skip_err pr hpr hsk
    have herr2 : pr.2.error = "dependency failed" := by
      rcases herr with he | he
      · rw [hcf he] at hff
        exact absurd hff (by decide)
      · exact he
    obtain ⟨ha2, hd2, st', hst', hid', d, hd, rd, hrdm, hrdf⟩ :=
      inv.dep_skip pr hpr hsk herr2
    have hee : st' = st := nodup_map_mem_inj hndt hst' hst (by rw [hid', hid])
    subst hee
    exact absurd hrdf (hdeps d hd (d, rd) hrdm rfl)
  · obtain ⟨st', hst', hid', heq⟩ := inv.run_res_ff hff pr hpr hsk
    have hee : st' = st := nodup_map_mem_inj hndt hst' hst (by rw [hid', hid])
    subst hee
    exact heq

theorem C10_witness :
    ("c", executeStep parse0 (oDemo "c") stC optsFF false)
        ∈ (runSched optsFF oDemo parse0 pChain csW10).results ∧
    (executeStep parse0 (oDemo "c") stC optsFF false).status = "success" ∧
    ("dependent", depFailSkip "dependent")
        ∈ (runSched optsFF oDemo parse0 pChain csW10).results := by
  have h := C10_skip_no_cascade optsFF oDemo parse0 pChain rfl (by decide) csW10
      ("c", executeStep parse0 (oDemo "c") stC optsFF false) (by decide)
      stC (by decide) rfl (by decide)
  refine ⟨?_, by decide, by decide⟩
  rw [show ("c", executeStep parse0 (oDemo "c") stC optsFF false).2
      = executeStep parse0 (oDemo "c") stC optsFF false from rfl] at h
  exact by decide

end Foundry